import Mathlib

/-!
# otelbundle: span filters and the environment carrier

A shallow embedding of `exporter/filter/filter.go` and `propagation/env/env.go`.

* A `ReadOnlySpan` is either a snapshot produced by the tracing SDK or one of the three
  wrapper structs of `filter.go`, each of which embeds a span and overrides `Status` and
  possibly `Attributes`.  A nil interface value is `none`.
* A `Filter` is a function on `Option ReadOnlySpan`.
* A `*Carrier` is an `Option Carrier`; `Set` returns the carrier after the call.
* Go strings are modelled by `String`; prefix tests and splitting work on the character list,
  which agrees with the byte-wise functions of package `strings` on valid UTF-8.
* The comparison `==` of two attribute values is `Value.goEq`: by type and content for values
  that are no slices, and by a parameter `sliceEq` for slice values, whose comparison depends
  on how the library stores a slice.
* The tables of package `unicode` outside ASCII are a parameter, `UnicodeTables`.
* For the question whether `Inject` writes to the caller's list, `Set` is given a second time
  on slices over backing arrays (`Heap`, `Slice`, `Carrier.SetH`, `InjectH`), and shown to
  compute the same lists.
-/

namespace Otelbundle

/-! ## Package `exporter/filter` -/

namespace codes

/-- Status code of a span (`codes.Code`): `Unset = 0`, `Error = 1`, `Ok = 2`. -/
inductive Code where
  | Unset
  | Error
  | Ok
deriving DecidableEq, Repr

end codes

/-- Typed attribute value (`attribute.Value`); `INVALID` is the zero value.  A float is kept as
its bit pattern, which is what the struct holds.  A slice value has, beside its elements, the
identity `ref` of the storage that holds them in the library's representation. -/
inductive Value where
  | INVALID
  | BOOL (b : Bool)
  | INT64 (i : Int)
  | FLOAT64 (bits : Nat)
  | STRING (s : String)
  | BOOLSLICE (ref : Nat) (bs : List Bool)
  | INT64SLICE (ref : Nat) (is : List Int)
  | FLOAT64SLICE (ref : Nat) (fs : List Nat)
  | STRINGSLICE (ref : Nat) (ss : List String)
deriving DecidableEq, Repr

/-- Textual rendering `Value.Emit`.  Booleans, integers and strings are rendered as in the
library (`strconv.FormatBool`, `strconv.FormatInt(_, 10)`, the string itself) and a value of no
type as "unknown"; the rendering of floats and slices is left to `render`. -/
def Value.Emit (render : Value → String) : Value → String
  | .INVALID => "unknown"
  | .BOOL b => if b then "true" else "false"
  | .INT64 i => toString i
  | .STRING s => s
  | v => render v

/-- Comparison `==` of two `attribute.Value`s, which compares the fields of the struct.  Values
of different types differ; two values that are no slices are equal when their type and their
content are, a float by its bit pattern.  How two slice values of one type compare depends on
how the library stores a slice, and is left to `sliceEq`. -/
def Value.goEq (sliceEq : Value → Value → Bool) : Value → Value → Bool
  | .INVALID, .INVALID => true
  | .BOOL a, .BOOL b => decide (a = b)
  | .INT64 a, .INT64 b => decide (a = b)
  | .FLOAT64 a, .FLOAT64 b => decide (a = b)
  | .STRING a, .STRING b => decide (a = b)
  | .BOOLSLICE r a, .BOOLSLICE r' b => sliceEq (.BOOLSLICE r a) (.BOOLSLICE r' b)
  | .INT64SLICE r a, .INT64SLICE r' b => sliceEq (.INT64SLICE r a) (.INT64SLICE r' b)
  | .FLOAT64SLICE r a, .FLOAT64SLICE r' b => sliceEq (.FLOAT64SLICE r a) (.FLOAT64SLICE r' b)
  | .STRINGSLICE r a, .STRINGSLICE r' b => sliceEq (.STRINGSLICE r a) (.STRINGSLICE r' b)
  | _, _ => false

/-- Attribute `attribute.KeyValue`. -/
structure KeyValue where
  Key : String
  Value : Value
deriving DecidableEq, Repr

/-- Constructor `attribute.String(k, v)`. -/
def attributeString (k v : String) : KeyValue := { Key := k, Value := .STRING v }

namespace semconv

/-- Key `semconv.HTTPStatusCodeKey`. -/
def HTTPStatusCodeKey : String := "http.status_code"

end semconv

namespace sdktrace

/-- Span status `sdktrace.Status`. -/
structure Status where
  Code : codes.Code
  Description : String
deriving DecidableEq, Repr

end sdktrace

/-- Decimal text `strconv.Itoa`. -/
def strconvItoa (i : Int) : String := toString i

/-- Text of `context.Canceled.Error()`. -/
def contextCanceledError : String := "context canceled"

/-- Values of the interface `sdktrace.ReadOnlySpan` that occur here: a span of the SDK, or one of
the wrappers `contextCancelNormal`, `httpStatusNormal`, `errorNormal` around another span. -/
inductive ReadOnlySpan where
  | snapshot (name : String) (status : sdktrace.Status) (attributes : List KeyValue)
  | contextCancelNormal (span : ReadOnlySpan)
  | httpStatusNormal (span : ReadOnlySpan)
  | errorNormal (span : ReadOnlySpan) (msg : String)
deriving DecidableEq, Repr

namespace ReadOnlySpan

/-- Method `Status()`: every wrapper answers `Status{Code: codes.Ok}`. -/
def Status : ReadOnlySpan → sdktrace.Status
  | .snapshot _ status _ => status
  | .contextCancelNormal _ => { Code := .Ok, Description := "" }
  | .httpStatusNormal _ => { Code := .Ok, Description := "" }
  | .errorNormal _ _ => { Code := .Ok, Description := "" }

/-- Method `Attributes()`: `contextCancelNormal` and `errorNormal` append a `message`
attribute to the embedded span's attributes, `httpStatusNormal` delegates. -/
def Attributes : ReadOnlySpan → List KeyValue
  | .snapshot _ _ attributes => attributes
  | .contextCancelNormal span =>
      span.Attributes ++ [attributeString "message" contextCanceledError]
  | .httpStatusNormal span => span.Attributes
  | .errorNormal span msg => span.Attributes ++ [attributeString "message" msg]

/-- Method `Name()`, one of the accessors every wrapper delegates. -/
def Name : ReadOnlySpan → String
  | .snapshot name _ _ => name
  | .contextCancelNormal span => span.Name
  | .httpStatusNormal span => span.Name
  | .errorNormal span _ => span.Name

end ReadOnlySpan

/-- Type `Filter`: `func(span sdktrace.ReadOnlySpan) sdktrace.ReadOnlySpan`. -/
abbrev Filter := Option ReadOnlySpan → Option ReadOnlySpan

/-- Inner loop of `Spans`: `for _, f := range filters { span = f(span) }`. -/
def Spans.applyFilters : List Filter → Option ReadOnlySpan → Option ReadOnlySpan
  | [], span => span
  | f :: filters, span => Spans.applyFilters filters (f span)

/-- Outer loop of `Spans`, with the slice `filtered` built so far. -/
def Spans.loop (filters : List Filter) :
    List (Option ReadOnlySpan) → List (Option ReadOnlySpan) → List (Option ReadOnlySpan)
  | [], filtered => filtered
  | span :: spans, filtered =>
      let span := Spans.applyFilters filters span
      if span ≠ none then Spans.loop filters spans (filtered ++ [span])
      else Spans.loop filters spans filtered

/-- Function `Spans(spans, filters...)`. -/
def Spans (spans : List (Option ReadOnlySpan)) (filters : List Filter) :
    List (Option ReadOnlySpan) :=
  if filters.length = 0 then spans
  else Spans.loop filters spans []

/-- Filter `ContextCancelNormal()`. -/
def ContextCancelNormal : Filter
  | none => none
  | some span =>
      let status := span.Status
      if status.Code = .Error ∧ status.Description = contextCanceledError then
        some (.contextCancelNormal span)
      else some span

/-- Attribute loop of `HTTPStatusNormal`: `true` when the loop returns the wrapper. -/
def HTTPStatusNormal.scan (render : Value → String) (statusCodeString : String) :
    List KeyValue → Bool
  | [] => false
  | attr :: rest =>
      if attr.Key = semconv.HTTPStatusCodeKey ∧ attr.Value.Emit render = statusCodeString then true
      else HTTPStatusNormal.scan render statusCodeString rest

/-- Filter `HTTPStatusNormal(status)`. -/
def HTTPStatusNormal (render : Value → String) (status : Int) : Filter :=
  let statusCodeString := strconvItoa status
  fun
  | none => none
  | some span =>
      if span.Status.Code = .Error then
        if HTTPStatusNormal.scan render statusCodeString span.Attributes then
          some (.httpStatusNormal span)
        else some span
      else some span

/-- Inner loop of `ErrorNormal`: the value of `found` when the scan of the span's attributes
ends, which is at the first attribute with the required key. -/
def ErrorNormal.found (sliceEq : Value → Value → Bool) (requiredAttr : KeyValue) :
    List KeyValue → Bool
  | [] => false
  | attr :: rest =>
      if requiredAttr.Key = attr.Key then
        if Value.goEq sliceEq requiredAttr.Value attr.Value then true else false
      else ErrorNormal.found sliceEq requiredAttr rest

/-- Loop of `ErrorNormal` over the required attributes: `false` when it returns `span` at an
attribute that was not found, `true` when it runs to its end. -/
def ErrorNormal.allFound (sliceEq : Value → Value → Bool) (span : ReadOnlySpan) :
    List KeyValue → Bool
  | [] => true
  | requiredAttr :: attrs =>
      if !ErrorNormal.found sliceEq requiredAttr span.Attributes then false
      else ErrorNormal.allFound sliceEq span attrs

/-- Filter `ErrorNormal(msg, attrs...)`; `sliceEq` is the comparison of slice values that `==`
on `attribute.Value` makes. -/
def ErrorNormal (sliceEq : Value → Value → Bool) (msg : String) (attrs : List KeyValue) : Filter
  | none => none
  | some span =>
      let status := span.Status
      if status.Code = .Error ∧ status.Description = msg then
        if ErrorNormal.allFound sliceEq span attrs then
          some (.errorNormal span status.Description)
        else some span
      else some span

/-! ## Package `propagation/env` -/

/-- Character tables of package `unicode` outside ASCII: the upper-case mapping and the letter
and number classes of the Unicode database. -/
structure UnicodeTables where
  ToUpper : Char → Char
  IsLetter : Char → Bool
  IsNumber : Char → Bool

/-- Function `unicode.ToUpper`: ASCII is handled directly, the rest by the case tables. -/
def unicodeToUpper (u : UnicodeTables) (r : Char) : Char :=
  if r.toNat ≤ 127 then
    if 'a' ≤ r ∧ r ≤ 'z' then Char.ofNat (r.toNat - ('a'.toNat - 'A'.toNat)) else r
  else u.ToUpper r

/-- Function `unicode.IsLetter`; in ASCII the letters are `A`-`Z` and `a`-`z`. -/
def unicodeIsLetter (u : UnicodeTables) (r : Char) : Bool :=
  if r.toNat ≤ 127 then ('A' ≤ r ∧ r ≤ 'Z') ∨ ('a' ≤ r ∧ r ≤ 'z') else u.IsLetter r

/-- Function `unicode.IsNumber`; in ASCII the numbers are `0`-`9`. -/
def unicodeIsNumber (u : UnicodeTables) (r : Char) : Bool :=
  if r.toNat ≤ 127 then '0' ≤ r ∧ r ≤ '9' else u.IsNumber r

/-- Function `strings.Map`: a character mapped to `none` (a negative rune) is dropped. -/
def stringsMap (mapping : Char → Option Char) (s : String) : String :=
  ⟨s.data.filterMap mapping⟩

/-- Function `strings.ToUpper`. -/
def stringsToUpper (u : UnicodeTables) (s : String) : String :=
  stringsMap (fun r => some (unicodeToUpper u r)) s

/-- Function `strings.ReplaceAll` for one-character `old` and `new`. -/
def stringsReplaceAll (s : String) (old new : Char) : String :=
  ⟨s.data.map (fun r => if r = old then new else r)⟩

/-- Function `strings.HasPrefix`. -/
def stringsHasPrefix (s pre : String) : Bool :=
  pre.data.isPrefixOf s.data

/-- Function `strings.TrimPrefix`. -/
def stringsTrimPrefix (s pre : String) : String :=
  if stringsHasPrefix s pre then ⟨s.data.drop pre.data.length⟩ else s

/-- Function `strings.SplitN(s, sep, 2)` for a one-character separator: the text before the
first separator and, when there is a separator, the text after it. -/
def stringsSplitN2 (s : String) (sep : Char) : List String :=
  match s.data.dropWhile (fun r => r ≠ sep) with
  | [] => [s]
  | _ :: after => [⟨s.data.takeWhile (fun r => r ≠ sep)⟩, ⟨after⟩]

/-- Struct `Carrier`. -/
structure Carrier where
  Env : List String
deriving DecidableEq, Repr

/-- Function `toKey`. -/
def toKey (u : UnicodeTables) (key : String) : String :=
  let key := stringsToUpper u key
  let key := stringsReplaceAll key '-' '_'
  stringsMap (fun r =>
    if unicodeIsLetter u r ∨ unicodeIsNumber u r ∨ r = '_' then some r else none) key

namespace Carrier

/-- Loop of `Get` over `c.Env`. -/
def Get.loop (key : String) : List String → String
  | [] => ""
  | e :: rest =>
      if stringsHasPrefix e (key ++ "=") then stringsTrimPrefix e (key ++ "=")
      else Get.loop key rest

/-- Method `(*Carrier).Get`. -/
def Get (u : UnicodeTables) : Option Carrier → String → String
  | none, _ => ""
  | some c, key =>
      let key := toKey u key
      Get.loop key c.Env

/-- Loop of `Set` over `c.Env`, at index `i` with `rest` still to visit: the new value of
`c.Env` when an entry matches, `none` when the loop ends without a match. -/
def Set.loop (Env : List String) (key value : String) : Nat → List String → Option (List String)
  | _, [] => none
  | i, e :: rest =>
      if stringsHasPrefix e (key ++ "=") then
        let newEnv := Env
        some (newEnv.take i ++ ([key ++ "=" ++ value] ++ newEnv.drop (i + 1)))
      else Set.loop Env key value (i + 1) rest

/-- Method `(*Carrier).Set`; the result is the carrier after the call. -/
def Set (u : UnicodeTables) : Option Carrier → String → String → Option Carrier
  | none, _, _ => none
  | some c, key, value =>
      let key := toKey u key
      match Set.loop c.Env key value 0 c.Env with
      | some newEnv => some { Env := newEnv }
      | none => some { Env := c.Env ++ [key ++ "=" ++ value] }

/-- Loop of `Keys` over `c.Env`, appending `parts[0]` to `keys`. -/
def Keys.loop : List String → List String → List String
  | [], keys => keys
  | e :: rest, keys =>
      let parts := stringsSplitN2 e '='
      Keys.loop rest (keys ++ [parts.getD 0 ""])

/-- Method `(*Carrier).Keys`; `keys` starts as `make([]string, len(c.Env))`. -/
def Keys : Option Carrier → List String
  | none => []
  | some c =>
      let keys := List.replicate c.Env.length ""
      Keys.loop c.Env keys

end Carrier

/-- Tables that classify nothing outside ASCII as a letter or a number and map every
non-ASCII character to itself. -/
def UnicodeTables.ascii : UnicodeTables :=
  { ToUpper := fun r => r, IsLetter := fun _ => false, IsNumber := fun _ => false }

/-! ## Specification-side definitions -/

/-- Filter chain for one span as the specification words it: each filter's output is the next
filter's input, and a `none` abandons the remaining filters. -/
def chainUntilDropped : List Filter → Option ReadOnlySpan → Option ReadOnlySpan
  | [], span => span
  | f :: filters, span =>
      match f span with
      | none => none
      | some out => chainUntilDropped filters (some out)

/-- Condition of the cancellation normalizer: status `Error` with the description
"context canceled". -/
def IsCanceled (s : ReadOnlySpan) : Prop :=
  s.Status.Code = .Error ∧ s.Status.Description = "context canceled"

/-- Condition of the HTTP-status normalizer: status `Error` and some attribute with the HTTP
status code key whose rendering is the decimal text of `n`. -/
def HasHTTPStatus (render : Value → String) (n : Int) (s : ReadOnlySpan) : Prop :=
  s.Status.Code = .Error ∧
    ∃ a ∈ s.Attributes, a.Key = "http.status_code" ∧ a.Value.Emit render = toString n

/-- Test whether a value is a slice value. -/
def Value.isSlice : Value → Bool
  | .BOOLSLICE _ _ => true
  | .INT64SLICE _ _ => true
  | .FLOAT64SLICE _ _ => true
  | .STRINGSLICE _ _ => true
  | _ => false

/-- Type and content of a value, without the identity of the storage of a slice. -/
def Value.content : Value → Value
  | .BOOLSLICE _ bs => .BOOLSLICE 0 bs
  | .INT64SLICE _ is => .INT64SLICE 0 is
  | .FLOAT64SLICE _ fs => .FLOAT64SLICE 0 fs
  | .STRINGSLICE _ ss => .STRINGSLICE 0 ss
  | v => v

/-- Condition on one required pair: the first attribute of the span with the pair's key exists
and has the pair's value, that is its type and its content. -/
def FirstHasValue (s : ReadOnlySpan) (r : KeyValue) : Prop :=
  ∃ a, s.Attributes.find? (fun a => decide (a.Key = r.Key)) = some a ∧
    a.Value.content = r.Value.content

/-- Condition of the error-description normalizer as the specification words it: status
`Error`, description `msg`, and every required pair met by the first attribute with its key. -/
def MatchesError (msg : String) (attrs : List KeyValue) (s : ReadOnlySpan) : Prop :=
  s.Status.Code = .Error ∧ s.Status.Description = msg ∧ ∀ r ∈ attrs, FirstHasValue s r

/-- Condition on one required pair under `==`: the first attribute of the span with the pair's
key exists and the required value is `==` to its value. -/
def FirstEqual (sliceEq : Value → Value → Bool) (s : ReadOnlySpan) (r : KeyValue) : Prop :=
  ∃ a, s.Attributes.find? (fun a => decide (a.Key = r.Key)) = some a ∧
    Value.goEq sliceEq r.Value a.Value = true

/-- Condition of the error-description normalizer under `==`: status `Error`, description
`msg`, and every required pair `==` to the first attribute with its key. -/
def MatchesErrorBy (sliceEq : Value → Value → Bool) (msg : String) (attrs : List KeyValue)
    (s : ReadOnlySpan) : Prop :=
  s.Status.Code = .Error ∧ s.Status.Description = msg ∧ ∀ r ∈ attrs, FirstEqual sliceEq s r

/-- Name of an entry `NAME=VALUE`: the part before its first `=` (the whole entry when it has
no `=`). -/
def entryName (e : String) : String :=
  ⟨e.data.takeWhile (fun r => r ≠ '=')⟩

/-! ## Example spans -/

/-- An error span whose description is "context canceled". -/
def exCanceled : ReadOnlySpan :=
  .snapshot "GET /" { Code := .Error, Description := "context canceled" }
    [{ Key := "peer", Value := .STRING "db" }]

/-- A span that ended without error. -/
def exOk : ReadOnlySpan :=
  .snapshot "GET /ok" { Code := .Ok, Description := "" } []

/-- An error span with the HTTP status attribute "404". -/
def exNotFound404 : ReadOnlySpan :=
  .snapshot "GET /x" { Code := .Error, Description := "not found" }
    [{ Key := "http.status_code", Value := .STRING "404" }]

/-- An error span "not found" that carries the key `resource` twice. -/
def exTwoResources : ReadOnlySpan :=
  .snapshot "lookup" { Code := .Error, Description := "not found" }
    [{ Key := "resource", Value := .STRING "group" }, { Key := "resource", Value := .STRING "user" }]

/-- Comparison `==` of two floats given by their bit patterns: a NaN is equal to nothing, the
two zeros are equal, and otherwise the bit patterns decide. -/
def float64Eq (a b : Nat) : Bool :=
  let isNaN := fun x : Nat => (x / 2 ^ 52) % 2 ^ 11 = 2047 ∧ x % 2 ^ 52 ≠ 0
  if isNaN a ∨ isNaN b then false
  else if a % 2 ^ 63 = 0 ∧ b % 2 ^ 63 = 0 then true
  else decide (a = b)

/-- Slice comparison of a library that keeps the elements of a slice value in an array: two
arrays of one length are compared element by element, floats by `float64Eq`. -/
def exArrayEq : Value → Value → Bool
  | .BOOLSLICE _ a, .BOOLSLICE _ b => decide (a = b)
  | .INT64SLICE _ a, .INT64SLICE _ b => decide (a = b)
  | .FLOAT64SLICE _ a, .FLOAT64SLICE _ b =>
      decide (a.length = b.length) && (List.zipWith float64Eq a b).all id
  | .STRINGSLICE _ a, .STRINGSLICE _ b => decide (a = b)
  | _, _ => false

/-- Slice comparison of a library that keeps a slice value behind a pointer: two slice values
are equal when they share their storage. -/
def exPointerEq : Value → Value → Bool
  | .BOOLSLICE r _, .BOOLSLICE r' _ => decide (r = r')
  | .INT64SLICE r _, .INT64SLICE r' _ => decide (r = r')
  | .FLOAT64SLICE r _, .FLOAT64SLICE r' _ => decide (r = r')
  | .STRINGSLICE r _, .STRINGSLICE r' _ => decide (r = r')
  | _, _ => false

/-- Required attribute `tags=["a"]`, a string slice in storage 1. -/
def exTagsRequired : KeyValue := { Key := "tags", Value := .STRINGSLICE 1 ["a"] }

/-- An error span "not found" with the attribute `tags=["a"]`, a string slice in storage 2. -/
def exTagged : ReadOnlySpan :=
  .snapshot "lookup" { Code := .Error, Description := "not found" }
    [{ Key := "tags", Value := .STRINGSLICE 2 ["a"] }]

/-- Required attribute `samples=[NaN]`, a float slice whose one element is the quiet NaN
`0x7FF8000000000000`. -/
def exSamplesRequired : KeyValue :=
  { Key := "samples", Value := .FLOAT64SLICE 1 [9221120237041090560] }

/-- An error span "not found" that carries the attribute `exSamplesRequired` itself. -/
def exSampled : ReadOnlySpan :=
  .snapshot "lookup" { Code := .Error, Description := "not found" } [exSamplesRequired]

/-- A filter that drops every span. -/
def exDrop : Filter := fun _ => none

/-- A filter that does not keep to the rule for `none`: it answers `exCanceled` whatever it is
given. -/
def exRevive : Filter := fun _ => some exCanceled

/-! ## Specification-side definitions for the carrier -/

/-- Name of an entry that has a `=`: the part before its first `=`.  An entry without `=` has
no name. -/
def entryName? (e : String) : Option String :=
  if '=' ∈ e.data then some (entryName e) else none

/-- Text of an entry after its first `=` (empty when the entry has no `=`). -/
def entryValue (e : String) : String :=
  ⟨(e.data.dropWhile (fun r => r ≠ '=')).drop 1⟩

/-- Key normalization as the specification words it, one character at a time: the upper-case
character, with `-` turned into `_`, is kept when it is a letter, a number or `_`. -/
def normalizeChar (u : UnicodeTables) (r : Char) : Option Char :=
  let c := unicodeToUpper u r
  let c := if c = '-' then '_' else c
  if unicodeIsLetter u c ∨ unicodeIsNumber u c ∨ c = '_' then some c else none

/-- Key normalization as the specification words it, in three passes over the characters:
upper-case, replace every `-` by `_`, delete what is not a letter, a number or `_`. -/
def normalizeKey (u : UnicodeTables) (key : String) : String :=
  ⟨((key.data.map (unicodeToUpper u)).map (fun c => if c = '-' then '_' else c)).filter
    (fun c => unicodeIsLetter u c || unicodeIsNumber u c || c == '_')⟩

/-- A sequence of `Set` calls on a carrier, each a key and a value, in order. -/
def Carrier.SetAll (u : UnicodeTables) (c : Option Carrier) (sets : List (String × String)) :
    Option Carrier :=
  sets.foldl (fun c kv => Carrier.Set u c kv.1 kv.2) c

/-- Function `Inject(ctx, environ)`.  The configured propagator is outside this package; what it
does to the carrier for `ctx` is given by `sets`, the `Set` calls it makes. -/
def Inject (u : UnicodeTables) (sets : List (String × String)) (environ : List String) :
    List String :=
  let carrier : Option Carrier := some { Env := environ }
  match Carrier.SetAll u carrier sets with
  | some c => c.Env
  | none => []

/-- Number of entries of a list whose name is `name`. -/
def countName (name : String) (L : List String) : Nat :=
  (L.filter (fun e => decide (entryName e = name))).length

/-- Number of entries of a list whose normalized name is `K`. -/
def countKey (u : UnicodeTables) (K : String) (L : List String) : Nat :=
  (L.filter (fun e => decide (toKey u (entryName e) = K))).length

/-- Well-formed environment list: every entry has a `=` and no two entries have the same
name. -/
def WellFormed (L : List String) : Prop :=
  (∀ e ∈ L, '=' ∈ e.data) ∧ (L.map entryName).Nodup

/-! ## Slices and their backing arrays

`Set` and `Inject` once more, on Go slices: a slice is a window on a backing array, `append`
writes into the spare capacity of its first argument when the result fits and into a new array
otherwise, and `make` and a slice literal allocate. -/

/-- Memory of string arrays: `cell a i` is element `i` of array `a`, and the arrays
`0, ..., next - 1` are the allocated ones. -/
structure Heap where
  cell : Nat → Nat → String
  next : Nat

/-- Slice header: the backing array, the index of the first element in it, the length and the
capacity. -/
structure Slice where
  arr : Nat
  off : Nat
  len : Nat
  cap : Nat
deriving DecidableEq, Repr

/-- Elements of a slice. -/
def Slice.read (h : Heap) (s : Slice) : List String :=
  (List.range s.len).map (fun i => h.cell s.arr (s.off + i))

/-- Slice expression `s[:i]`. -/
def Slice.sliceTo (s : Slice) (i : Nat) : Slice :=
  { s with len := i }

/-- Slice expression `s[i:]`. -/
def Slice.sliceFrom (s : Slice) (i : Nat) : Slice :=
  { arr := s.arr, off := s.off + i, len := s.len - i, cap := s.cap - i }

/-- Store of the elements `xs` in array `a` from index `p` on. -/
def Heap.store (h : Heap) (a p : Nat) (xs : List String) : Heap :=
  { h with
    cell := fun a' i =>
      if a' = a ∧ p ≤ i ∧ i < p + xs.length then xs.getD (i - p) "" else h.cell a' i }

/-- Allocation of a new array, all of whose elements are the empty string. -/
def Heap.alloc (h : Heap) : Nat × Heap :=
  (h.next, { cell := fun a i => if a = h.next then "" else h.cell a i, next := h.next + 1 })

/-- Builtin `make([]string, n)`. -/
def goMake (h : Heap) (n : Nat) : Slice × Heap :=
  let r := h.alloc
  ({ arr := r.1, off := 0, len := n, cap := n }, r.2)

/-- Slice literal `[]string{x}`. -/
def goLiteral (h : Heap) (x : String) : Slice × Heap :=
  let r := h.alloc
  ({ arr := r.1, off := 0, len := 1, cap := 1 }, r.2.store r.1 0 [x])

/-- Builtin `copy(dst, src)`. -/
def goCopy (h : Heap) (dst src : Slice) : Heap :=
  h.store dst.arr dst.off ((src.read h).take (min dst.len src.len))

/-- Builtin `append(s, xs...)`: in place when `len(s) + len(xs)` is within the capacity of `s`,
else into a new array, whose capacity is at least the new length and otherwise as `growCap`
says. -/
def goAppend (growCap : Nat → Nat → Nat) (h : Heap) (s : Slice) (xs : List String) :
    Slice × Heap :=
  if s.len + xs.length ≤ s.cap then
    ({ s with len := s.len + xs.length }, h.store s.arr (s.off + s.len) xs)
  else
    let r := h.alloc
    ({ arr := r.1, off := 0, len := s.len + xs.length,
       cap := max (s.len + xs.length) (growCap s.cap (s.len + xs.length)) },
      r.2.store r.1 0 (s.read h ++ xs))

/-- Loop of `Set` over `c.Env`: the index of the first entry that matches. -/
def Carrier.SetH.loop (key : String) : Nat → List String → Option Nat
  | _, [] => none
  | i, e :: rest =>
      if stringsHasPrefix e (key ++ "=") then some i else Carrier.SetH.loop key (i + 1) rest

/-- Body of the `if` in the loop of `Set`, at index `i` with `entry` the new `KEY=value`:
`newEnv := make([]string, len(c.Env))`, `copy(newEnv, c.Env)` and
`c.Env = append(newEnv[:i], append([]string{entry}, newEnv[i+1:]...)...)`. -/
def Carrier.SetH.replace (growCap : Nat → Nat → Nat) (h : Heap) (env : Slice) (i : Nat)
    (entry : String) : Slice × Heap :=
  let r1 := goMake h env.len
  let newEnv := r1.1
  let h2 := goCopy r1.2 newEnv env
  let r3 := goLiteral h2 entry
  let r4 := goAppend growCap r3.2 r3.1 ((newEnv.sliceFrom (i + 1)).read r3.2)
  goAppend growCap r4.2 (newEnv.sliceTo i) (r4.1.read r4.2)

/-- Method `(*Carrier).Set` on a non-nil carrier whose `Env` is the slice `env`: the value of
`c.Env` and the memory after the call. -/
def Carrier.SetH (u : UnicodeTables) (growCap : Nat → Nat → Nat) (h : Heap) (env : Slice)
    (key value : String) : Slice × Heap :=
  let key := toKey u key
  match Carrier.SetH.loop key 0 (env.read h) with
  | some i => Carrier.SetH.replace growCap h env i (key ++ "=" ++ value)
  | none => goAppend growCap h env [key ++ "=" ++ value]

/-- Function `Inject(ctx, environ)` on slices, with `sets` the `Set` calls of the propagator:
the returned slice `carrier.Env` and the memory after the call. -/
def InjectH (u : UnicodeTables) (growCap : Nat → Nat → Nat) (sets : List (String × String))
    (h : Heap) (environ : Slice) : Slice × Heap :=
  sets.foldl (fun st kv => Carrier.SetH u growCap st.2 st.1 kv.1 kv.2) (environ, h)

/-- Memory with one array, which holds `PATH=/bin` and `TRACEPARENT=old` and three more
elements. -/
def exHeap : Heap :=
  { cell := fun a i =>
      if a = 0 then ["PATH=/bin", "TRACEPARENT=old", "spare", "", ""].getD i "" else "",
    next := 1 }

/-- Slice of the two entries of `exHeap`, of capacity five. -/
def exEnviron : Slice := { arr := 0, off := 0, len := 2, cap := 5 }

/-- Growth of `append` that doubles the capacity. -/
def exGrow : Nat → Nat → Nat := fun cap _ => 2 * cap

/-! ## Lemmas on the filter chain -/

theorem Spans.applyFilters_eq_foldl (filters : List Filter) (span : Option ReadOnlySpan) :
    Spans.applyFilters filters span = filters.foldl (fun out f => f out) span := by
  induction filters generalizing span with
  | nil => rfl
  | cons f fs ih => simp [Spans.applyFilters, ih]

theorem Spans.applyFilters_append (fs gs : List Filter) (span : Option ReadOnlySpan) :
    Spans.applyFilters (fs ++ gs) span = Spans.applyFilters gs (Spans.applyFilters fs span) := by
  simp [Spans.applyFilters_eq_foldl]

theorem Spans.applyFilters_none (filters : List Filter) (h : ∀ f ∈ filters, f none = none) :
    Spans.applyFilters filters none = none := by
  induction filters with
  | nil => rfl
  | cons f fs ih =>
    have hf : f none = none := h f (List.mem_cons_self _ _)
    simp only [Spans.applyFilters, hf]
    exact ih (fun g hg => h g (List.mem_cons_of_mem _ hg))

theorem chainUntilDropped_eq_applyFilters (filters : List Filter)
    (h : ∀ f ∈ filters, f none = none) (span : Option ReadOnlySpan) :
    chainUntilDropped filters span = Spans.applyFilters filters span := by
  induction filters generalizing span with
  | nil => rfl
  | cons f fs ih =>
    have hfs : ∀ g ∈ fs, g none = none := fun g hg => h g (List.mem_cons_of_mem _ hg)
    simp only [chainUntilDropped, Spans.applyFilters]
    cases hfx : f span with
    | none => simp [Spans.applyFilters_none fs hfs]
    | some out => simpa using ih hfs (some out)

theorem Spans.loop_eq_filterMap (filters : List Filter) (spans filtered : List (Option ReadOnlySpan)) :
    Spans.loop filters spans filtered =
      filtered ++ (spans.filterMap (Spans.applyFilters filters)).map some := by
  induction spans generalizing filtered with
  | nil => simp [Spans.loop]
  | cons span rest ih =>
    simp only [Spans.loop]
    cases hx : Spans.applyFilters filters span with
    | none => simp [ih, List.filterMap_cons, hx]
    | some out => simp [ih, List.filterMap_cons, hx]

theorem Spans_of_ne_nil (spans : List (Option ReadOnlySpan)) (filters : List Filter)
    (hne : filters ≠ []) :
    Spans spans filters = (spans.filterMap (Spans.applyFilters filters)).map some := by
  have hlen : ¬ filters.length = 0 := by
    intro h
    exact hne (List.length_eq_zero.mp h)
  simp [Spans, hlen, Spans.loop_eq_filterMap]

theorem ReadOnlySpan.ne_contextCancelNormal (s : ReadOnlySpan) : s ≠ .contextCancelNormal s := by
  intro h
  have := congrArg sizeOf h
  simp at this

theorem ReadOnlySpan.ne_httpStatusNormal (s : ReadOnlySpan) : s ≠ .httpStatusNormal s := by
  intro h
  have := congrArg sizeOf h
  simp at this

theorem ReadOnlySpan.ne_errorNormal (s : ReadOnlySpan) (msg : String) :
    s ≠ .errorNormal s msg := by
  intro h
  have := congrArg sizeOf h
  simp at this
  omega

/-! ## The filter chain `Spans` -/

/-- C1: with at least one filter, each mapping `none` to `none`, `Spans` is the input list with
every span passed through the filters from left to right, each output being the next input, and
exactly the spans whose final result is not `none` kept, in the order of their originals; this
is also the chain of the specification, which stops at the first `none`. -/
theorem Spans_eq_filterMap_chain (spans : List (Option ReadOnlySpan)) (filters : List Filter)
    (hne : filters ≠ []) (habs : ∀ f ∈ filters, f none = none) :
    Spans spans filters
        = (spans.filterMap (fun span => filters.foldl (fun out f => f out) span)).map some
      ∧ Spans spans filters = (spans.filterMap (chainUntilDropped filters)).map some := by
  have hfold : Spans.applyFilters filters = fun span => filters.foldl (fun out f => f out) span :=
    funext (Spans.applyFilters_eq_foldl filters)
  have hchain : chainUntilDropped filters = Spans.applyFilters filters :=
    funext (chainUntilDropped_eq_applyFilters filters habs)
  refine ⟨?_, ?_⟩
  · rw [Spans_of_ne_nil spans filters hne, hfold]
  · rw [Spans_of_ne_nil spans filters hne, hchain]

/-- Witness of C1: a canceled span, a nil entry and an ok span through `ContextCancelNormal`. -/
theorem Spans_eq_filterMap_chain_witness :
    ([ContextCancelNormal] : List Filter) ≠ [] ∧
    (∀ f ∈ ([ContextCancelNormal] : List Filter), f none = none) ∧
    Spans [some exCanceled, none, some exOk] [ContextCancelNormal]
      = [some (.contextCancelNormal exCanceled), some exOk] :=
  ⟨by simp, by simp [ContextCancelNormal],
    (Spans_eq_filterMap_chain [some exCanceled, none, some exOk] [ContextCancelNormal]
      (by simp) (by simp [ContextCancelNormal])).1.trans (by decide)⟩

/-- C2: with zero filters `Spans` returns its input: the same spans in the same order, and so
of the same length. -/
theorem Spans_no_filters (spans : List (Option ReadOnlySpan)) :
    Spans spans [] = spans ∧ (Spans spans []).length = spans.length := by
  simp [Spans]

/-- C3 as stated fails: `exDrop` returns `none` for `exCanceled`, the later filter `exRevive` is
still called, and the span is in the result. -/
theorem Spans_drop_then_revive :
    exDrop (Spans.applyFilters [] (some exCanceled)) = none ∧
    Spans [some exCanceled] [exDrop, exRevive] = [some exCanceled] ∧
    ¬ (∀ (pre post : List (Option ReadOnlySpan)) (span : Option ReadOnlySpan)
        (before : List Filter) (f : Filter) (after : List Filter),
        f (Spans.applyFilters before span) = none →
        Spans (pre ++ span :: post) (before ++ f :: after)
          = Spans (pre ++ post) (before ++ f :: after)) := by
  refine ⟨rfl, by decide, ?_⟩
  intro h
  have h1 := h [] [] (some exCanceled) [] exDrop [exRevive] rfl
  have h2 : Spans ([] ++ some exCanceled :: []) ([] ++ exDrop :: [exRevive]) = [some exCanceled] := by
    decide
  have h3 : Spans ([] ++ []) ([] ++ exDrop :: [exRevive]) = [] := by decide
  rw [h2, h3] at h1
  exact List.cons_ne_nil _ _ h1

/-- C3 amended: when a filter of the chain returns `none` for a span and every filter after it
maps `none` to `none`, the chain ends in `none` for that span and the span adds nothing to the
result of `Spans`, wherever the filter stands in the chain. -/
theorem Spans_drop_of_absorbing (pre post : List (Option ReadOnlySpan))
    (span : Option ReadOnlySpan) (before : List Filter) (f : Filter) (after : List Filter)
    (hdrop : f (Spans.applyFilters before span) = none)
    (habs : ∀ g ∈ after, g none = none) :
    Spans.applyFilters (before ++ f :: after) span = none ∧
    Spans (pre ++ span :: post) (before ++ f :: after)
      = Spans (pre ++ post) (before ++ f :: after) := by
  have hnone : Spans.applyFilters (before ++ f :: after) span = none := by
    rw [Spans.applyFilters_append]
    simp only [Spans.applyFilters, hdrop]
    exact Spans.applyFilters_none after habs
  have hne : before ++ f :: after ≠ [] := by simp
  refine ⟨hnone, ?_⟩
  rw [Spans_of_ne_nil _ _ hne, Spans_of_ne_nil _ _ hne]
  simp [List.filterMap_append, List.filterMap_cons, hnone]

/-- Witness of C3 amended: `exDrop` between `ContextCancelNormal` and `ErrorNormal`. -/
theorem Spans_drop_of_absorbing_witness :
    exDrop (Spans.applyFilters [ContextCancelNormal] (some exCanceled)) = none ∧
    (∀ g ∈ ([ErrorNormal exPointerEq "not found" []] : List Filter), g none = none) ∧
    Spans.applyFilters ([ContextCancelNormal] ++ exDrop :: [ErrorNormal exPointerEq "not found" []])
      (some exCanceled) = none ∧
    Spans ([some exOk] ++ some exCanceled :: [some exNotFound404])
        ([ContextCancelNormal] ++ exDrop :: [ErrorNormal exPointerEq "not found" []])
      = Spans ([some exOk] ++ [some exNotFound404])
        ([ContextCancelNormal] ++ exDrop :: [ErrorNormal exPointerEq "not found" []]) :=
  ⟨rfl, by simp [ErrorNormal],
    Spans_drop_of_absorbing [some exOk] [some exNotFound404] (some exCanceled)
      [ContextCancelNormal] exDrop [ErrorNormal exPointerEq "not found" []] rfl (by simp [ErrorNormal])⟩

/-! ## The standard filters -/

/-- C4: each standard filter maps `none` to `none`, for every status code, message and list of
required attributes. -/
theorem standard_filters_none (render : Value → String) (sliceEq : Value → Value → Bool)
    (n : Int) (msg : String) (attrs : List KeyValue) :
    ContextCancelNormal none = none ∧ HTTPStatusNormal render n none = none ∧
      ErrorNormal sliceEq msg attrs none = none :=
  ⟨rfl, rfl, rfl⟩

/-- C5: `ContextCancelNormal` returns the wrapper of `s`, whose status code is `Ok` and whose
attributes are those of `s` followed by `message="context canceled"`, exactly when `s` has
status `Error` and description "context canceled"; otherwise it returns `s` itself. -/
theorem ContextCancelNormal_spec (s : ReadOnlySpan) :
    (ContextCancelNormal (some s) = some (.contextCancelNormal s) ↔ IsCanceled s) ∧
    ((∃ v, ContextCancelNormal (some s) = some v ∧ v.Status.Code = .Ok ∧
        v.Attributes = s.Attributes ++ [attributeString "message" "context canceled"])
      ↔ IsCanceled s) ∧
    (¬ IsCanceled s → ContextCancelNormal (some s) = some s) := by
  by_cases h : IsCanceled s
  · have hres : ContextCancelNormal (some s) = some (.contextCancelNormal s) := by
      have h' := h
      simp only [IsCanceled] at h'
      simp [ContextCancelNormal, contextCanceledError, h'.1, h'.2]
    refine ⟨⟨fun _ => h, fun _ => hres⟩, ⟨fun _ => h, fun _ => ?_⟩, fun hn => absurd h hn⟩
    exact ⟨_, hres, rfl, rfl⟩
  · have hres : ContextCancelNormal (some s) = some s := by
      have h' := h
      simp only [IsCanceled] at h'
      simp only [ContextCancelNormal, contextCanceledError]
      rw [if_neg h']
    refine ⟨⟨fun hv => ?_, fun hc => absurd hc h⟩, ⟨?_, fun hc => absurd hc h⟩, fun _ => hres⟩
    · rw [hres] at hv
      exact absurd (Option.some.inj hv) (ReadOnlySpan.ne_contextCancelNormal s)
    · rintro ⟨v, hv, _, hattrs⟩
      rw [hres] at hv
      cases Option.some.inj hv
      have := congrArg List.length hattrs
      simp at this

theorem HTTPStatusNormal.scan_iff (render : Value → String) (str : String)
    (attrs : List KeyValue) :
    HTTPStatusNormal.scan render str attrs = true ↔
      ∃ a ∈ attrs, a.Key = "http.status_code" ∧ a.Value.Emit render = str := by
  induction attrs with
  | nil => simp [HTTPStatusNormal.scan]
  | cons attr rest ih =>
    simp only [HTTPStatusNormal.scan, semconv.HTTPStatusCodeKey]
    by_cases h : attr.Key = "http.status_code" ∧ attr.Value.Emit render = str
    · rw [if_pos h]
      simp only [true_iff]
      exact ⟨attr, List.mem_cons_self _ _, h⟩
    · rw [if_neg h, ih]
      constructor
      · rintro ⟨a, ha, hk⟩
        exact ⟨a, List.mem_cons_of_mem _ ha, hk⟩
      · rintro ⟨a, ha, hk⟩
        rcases List.mem_cons.mp ha with rfl | ha
        · exact absurd hk h
        · exact ⟨a, ha, hk⟩

theorem ErrorNormal.found_iff (sliceEq : Value → Value → Bool) (r : KeyValue)
    (attrs : List KeyValue) :
    ErrorNormal.found sliceEq r attrs = true ↔
      ∃ a, attrs.find? (fun a => decide (a.Key = r.Key)) = some a ∧
        Value.goEq sliceEq r.Value a.Value = true := by
  induction attrs with
  | nil => simp [ErrorNormal.found]
  | cons attr rest ih =>
    simp only [ErrorNormal.found]
    by_cases hk : r.Key = attr.Key
    · have hk' : attr.Key = r.Key := hk.symm
      rw [if_pos hk]
      simp only [List.find?_cons, hk', decide_True]
      by_cases hv : Value.goEq sliceEq r.Value attr.Value = true
      · rw [if_pos hv]
        simp only [true_iff]
        exact ⟨attr, rfl, hv⟩
      · rw [if_neg hv]
        simp only [Bool.false_eq_true, false_iff]
        rintro ⟨a, ha, hav⟩
        cases Option.some.inj ha
        exact hv hav
    · have hk' : ¬ attr.Key = r.Key := fun h => hk h.symm
      rw [if_neg hk, ih]
      simp only [List.find?_cons, hk', decide_False]

theorem ErrorNormal.allFound_iff (sliceEq : Value → Value → Bool) (s : ReadOnlySpan)
    (attrs : List KeyValue) :
    ErrorNormal.allFound sliceEq s attrs = true ↔ ∀ r ∈ attrs, FirstEqual sliceEq s r := by
  induction attrs with
  | nil => simp [ErrorNormal.allFound]
  | cons r rest ih =>
    simp only [ErrorNormal.allFound, List.forall_mem_cons]
    by_cases hf : ErrorNormal.found sliceEq r s.Attributes = true
    · have hr : FirstEqual sliceEq s r := (ErrorNormal.found_iff sliceEq r s.Attributes).mp hf
      simp [hf, ih, hr]
    · have hr : ¬ FirstEqual sliceEq s r :=
        fun h => hf ((ErrorNormal.found_iff sliceEq r s.Attributes).mpr h)
      simp [hf, hr]

theorem Value.goEq_of_not_slice (sliceEq : Value → Value → Bool) (r a : Value)
    (hr : r.isSlice = false) : Value.goEq sliceEq r a = true ↔ a = r := by
  cases r <;> cases a <;> simp_all [Value.goEq, Value.isSlice, eq_comm]

theorem Value.content_eq_of_not_slice (r a : Value) (hr : r.isSlice = false) :
    a.content = r.content ↔ a = r := by
  cases r <;> cases a <;> simp_all [Value.content, Value.isSlice]

/-- C6: `HTTPStatusNormal n` returns the wrapper of `s`, whose status code is `Ok` and whose
attributes are those of `s`, exactly when `s` has status `Error` and some attribute, at any
position, has the HTTP status code key and a value whose rendering is the decimal text of `n`;
otherwise it returns `s` itself.  The string "404" and the integer 404 both render as the
text of 404, and an error span with status "404" is left as it is by the filter for 500. -/
theorem HTTPStatusNormal_spec (render : Value → String) (n : Int) (s : ReadOnlySpan) :
    (HTTPStatusNormal render n (some s) = some (.httpStatusNormal s) ↔ HasHTTPStatus render n s) ∧
    ((∃ v, HTTPStatusNormal render n (some s) = some v ∧ v ≠ s ∧ v.Status.Code = .Ok ∧
        v.Attributes = s.Attributes) ↔ HasHTTPStatus render n s) ∧
    (¬ HasHTTPStatus render n s → HTTPStatusNormal render n (some s) = some s) ∧
    (Value.STRING "404").Emit render = strconvItoa 404 ∧
    (Value.INT64 404).Emit render = strconvItoa 404 ∧
    HTTPStatusNormal render 404 (some exNotFound404) = some (.httpStatusNormal exNotFound404) ∧
    HTTPStatusNormal render 500 (some exNotFound404) = some exNotFound404 := by
  have key : ∀ (m : Int) (t : ReadOnlySpan),
      (HasHTTPStatus render m t → HTTPStatusNormal render m (some t) = some (.httpStatusNormal t)) ∧
      (¬ HasHTTPStatus render m t → HTTPStatusNormal render m (some t) = some t) := by
    intro m t
    have hm : (t.Status.Code = .Error ∧
        HTTPStatusNormal.scan render (strconvItoa m) t.Attributes = true) ↔
        HasHTTPStatus render m t := by
      simp only [HasHTTPStatus, HTTPStatusNormal.scan_iff, strconvItoa]
    constructor
    · intro h
      obtain ⟨h1, h2⟩ := hm.mpr h
      simp [HTTPStatusNormal, h1, h2]
    · intro h
      by_cases h1 : t.Status.Code = .Error
      · have h2 : ¬ HTTPStatusNormal.scan render (strconvItoa m) t.Attributes = true :=
          fun h2 => h (hm.mp ⟨h1, h2⟩)
        simp [HTTPStatusNormal, h1, h2]
      · simp [HTTPStatusNormal, h1]
  have h404 : HasHTTPStatus render 404 exNotFound404 := by
    refine ⟨rfl, ⟨_, List.mem_cons_self _ _, rfl, ?_⟩⟩
    show ("404" : String) = toString (404 : Int)
    decide
  have h500 : ¬ HasHTTPStatus render 500 exNotFound404 := by
    rintro ⟨_, a, ha, _, hv⟩
    simp only [exNotFound404, ReadOnlySpan.Attributes, List.mem_singleton] at ha
    subst ha
    have hv' : ("404" : String) = toString (500 : Int) := hv
    revert hv'
    decide
  have hstr : ("404" : String) = strconvItoa 404 := by decide
  refine ⟨?_, ?_, (key n s).2, hstr, rfl, (key 404 _).1 h404, (key 500 _).2 h500⟩
  · constructor
    · intro hv
      by_contra hc
      rw [(key n s).2 hc] at hv
      exact ReadOnlySpan.ne_httpStatusNormal s (Option.some.inj hv)
    · exact (key n s).1
  · constructor
    · rintro ⟨v, hv, hne, _, _⟩
      by_contra hc
      rw [(key n s).2 hc] at hv
      exact hne (Option.some.inj hv).symm
    · intro h
      exact ⟨_, (key n s).1 h, fun e => ReadOnlySpan.ne_httpStatusNormal s e.symm, rfl, rfl⟩

/-- C7 as stated fails on slice values.  The first attribute with the required key has the
required value, a slice of the same elements, and yet `ErrorNormal` returns the span
unchanged: `==` on two slice values does not compare their content when the library keeps a
slice behind a pointer (`tags=["a"]` in two storages), and a NaN in an array is equal to
nothing (`samples=[NaN]`). -/
theorem ErrorNormal_slice_value_unmatched :
    MatchesError "not found" [exTagsRequired] exTagged ∧
    ErrorNormal exPointerEq "not found" [exTagsRequired] (some exTagged) = some exTagged ∧
    MatchesError "not found" [exSamplesRequired] exSampled ∧
    ErrorNormal exArrayEq "not found" [exSamplesRequired] (some exSampled) = some exSampled ∧
    ¬ (∀ (msg : String) (attrs : List KeyValue) (s : ReadOnlySpan),
        ErrorNormal exPointerEq msg attrs (some s) = some (.errorNormal s s.Status.Description)
          ↔ MatchesError msg attrs s) ∧
    ¬ (∀ (msg : String) (attrs : List KeyValue) (s : ReadOnlySpan),
        ErrorNormal exArrayEq msg attrs (some s) = some (.errorNormal s s.Status.Description)
          ↔ MatchesError msg attrs s) := by
  have hm1 : MatchesError "not found" [exTagsRequired] exTagged := by
    refine ⟨rfl, rfl, ?_⟩
    intro r hr
    rw [List.mem_singleton.mp hr]
    exact ⟨_, rfl, rfl⟩
  have he1 : ErrorNormal exPointerEq "not found" [exTagsRequired] (some exTagged)
      = some exTagged := by decide
  have hm2 : MatchesError "not found" [exSamplesRequired] exSampled := by
    refine ⟨rfl, rfl, ?_⟩
    intro r hr
    rw [List.mem_singleton.mp hr]
    exact ⟨_, rfl, rfl⟩
  have he2 : ErrorNormal exArrayEq "not found" [exSamplesRequired] (some exSampled)
      = some exSampled := by decide
  refine ⟨hm1, he1, hm2, he2, ?_, ?_⟩
  · intro h
    have hw := (h "not found" [exTagsRequired] exTagged).mpr hm1
    rw [he1] at hw
    exact ReadOnlySpan.ne_errorNormal _ _ (Option.some.inj hw)
  · intro h
    have hw := (h "not found" [exSamplesRequired] exSampled).mpr hm2
    rw [he2] at hw
    exact ReadOnlySpan.ne_errorNormal _ _ (Option.some.inj hw)

/-- C7 amended: `ErrorNormal msg attrs` returns the wrapper of `s`, whose status code is `Ok`
and whose attributes are those of `s` followed by `message=<description of s>`, exactly when
`s` has status `Error`, its description is `msg`, and for every required pair the first
attribute of `s` with that key exists and the required value is `==` to its value; otherwise it
returns `s` itself.  With no required pair the status and the description decide alone.  For a
required value that is no slice, `==` holds exactly of that value, so for required pairs
without slice values the condition is that the first attribute with the key has exactly the
required value. -/
theorem ErrorNormal_spec (sliceEq : Value → Value → Bool) (msg : String)
    (attrs : List KeyValue) (s : ReadOnlySpan) :
    (ErrorNormal sliceEq msg attrs (some s) = some (.errorNormal s s.Status.Description)
      ↔ MatchesErrorBy sliceEq msg attrs s) ∧
    ((∃ v, ErrorNormal sliceEq msg attrs (some s) = some v ∧ v.Status.Code = .Ok ∧
        v.Attributes = s.Attributes ++ [attributeString "message" s.Status.Description])
      ↔ MatchesErrorBy sliceEq msg attrs s) ∧
    (¬ MatchesErrorBy sliceEq msg attrs s → ErrorNormal sliceEq msg attrs (some s) = some s) ∧
    (MatchesErrorBy sliceEq msg [] s ↔ s.Status.Code = .Error ∧ s.Status.Description = msg) ∧
    (∀ r a : Value, r.isSlice = false → (Value.goEq sliceEq r a = true ↔ a = r)) ∧
    ((∀ r ∈ attrs, r.Value.isSlice = false) →
      (MatchesErrorBy sliceEq msg attrs s ↔ MatchesError msg attrs s)) := by
  have hpos : MatchesErrorBy sliceEq msg attrs s →
      ErrorNormal sliceEq msg attrs (some s) = some (.errorNormal s s.Status.Description) := by
    rintro ⟨h1, h2, h3⟩
    have h4 := (ErrorNormal.allFound_iff sliceEq s attrs).mpr h3
    simp [ErrorNormal, h1, h2, h4]
  have hneg : ¬ MatchesErrorBy sliceEq msg attrs s →
      ErrorNormal sliceEq msg attrs (some s) = some s := by
    intro h
    by_cases h12 : s.Status.Code = .Error ∧ s.Status.Description = msg
    · have h4 : ¬ ErrorNormal.allFound sliceEq s attrs = true :=
        fun h4 => h ⟨h12.1, h12.2, (ErrorNormal.allFound_iff sliceEq s attrs).mp h4⟩
      simp only [ErrorNormal]
      rw [if_pos h12, if_neg h4]
    · simp only [ErrorNormal]
      rw [if_neg h12]
  refine ⟨⟨fun hv => ?_, hpos⟩, ⟨?_, fun h => ⟨_, hpos h, rfl, rfl⟩⟩, hneg, ?_,
    fun r a hr => Value.goEq_of_not_slice sliceEq r a hr, ?_⟩
  · by_contra hc
    rw [hneg hc] at hv
    exact ReadOnlySpan.ne_errorNormal s _ (Option.some.inj hv)
  · rintro ⟨v, hv, _, hattrs⟩
    by_contra hc
    rw [hneg hc] at hv
    cases Option.some.inj hv
    have := congrArg List.length hattrs
    simp at this
  · simp [MatchesErrorBy]
  · intro hscalar
    have hone : ∀ r ∈ attrs, (FirstEqual sliceEq s r ↔ FirstHasValue s r) := by
      intro r hr
      constructor
      · rintro ⟨a, ha, hv⟩
        refine ⟨a, ha, ?_⟩
        rw [(Value.goEq_of_not_slice sliceEq r.Value a.Value (hscalar r hr)).mp hv]
      · rintro ⟨a, ha, hv⟩
        refine ⟨a, ha, ?_⟩
        exact (Value.goEq_of_not_slice sliceEq r.Value a.Value (hscalar r hr)).mpr
          ((Value.content_eq_of_not_slice r.Value a.Value (hscalar r hr)).mp hv)
    constructor
    · rintro ⟨h1, h2, h3⟩
      exact ⟨h1, h2, fun r hr => (hone r hr).mp (h3 r hr)⟩
    · rintro ⟨h1, h2, h3⟩
      exact ⟨h1, h2, fun r hr => (hone r hr).mpr (h3 r hr)⟩

/-- C8 fails on the code: every required attribute (`resource=user`) is on `exTwoResources`,
whose status is `Error` with description "not found", yet the scan stops at the first
`resource` attribute and the span is returned with its status `Error`. -/
theorem ErrorNormal_later_attribute_ignored (sliceEq : Value → Value → Bool) :
    exTwoResources.Status.Code = .Error ∧ exTwoResources.Status.Description = "not found" ∧
    (∀ r ∈ [attributeString "resource" "user"],
      ∃ a ∈ exTwoResources.Attributes, a.Key = r.Key ∧ a.Value = r.Value) ∧
    ErrorNormal sliceEq "not found" [attributeString "resource" "user"] (some exTwoResources)
      = some exTwoResources ∧
    (ErrorNormal sliceEq "not found" [attributeString "resource" "user"]
        (some exTwoResources)).map
      (fun v => v.Status.Code) = some .Error := by
  refine ⟨rfl, rfl, ?_, rfl, rfl⟩
  intro r hr
  simp only [List.mem_singleton] at hr
  subst hr
  exact ⟨⟨"resource", .STRING "user"⟩, by decide, rfl, rfl⟩

/-! ## The environment carrier -/

theorem stringsHasPrefix_iff (s pre : String) :
    stringsHasPrefix s pre = true ↔ ∃ rest : String, s = pre ++ rest := by
  simp only [stringsHasPrefix, List.isPrefixOf_iff_prefix]
  constructor
  · rintro ⟨t, ht⟩
    exact ⟨⟨t⟩, String.ext (by simp [ht])⟩
  · rintro ⟨rest, rfl⟩
    exact ⟨rest.data, by simp⟩

theorem stringsSplitN2_head (e : String) : (stringsSplitN2 e '=').getD 0 "" = entryName e := by
  have hsplit := List.takeWhile_append_dropWhile (fun r => decide (r ≠ '=')) e.data
  unfold stringsSplitN2 entryName
  cases h : e.data.dropWhile (fun r => decide (r ≠ '=')) with
  | nil =>
    rw [h, List.append_nil] at hsplit
    rw [hsplit]
    rfl
  | cons c rest => rfl

theorem Carrier.Keys.loop_eq_append (env keys : List String) :
    Carrier.Keys.loop env keys = keys ++ env.map entryName := by
  induction env generalizing keys with
  | nil => simp [Carrier.Keys.loop]
  | cons e rest ih =>
    simp only [Carrier.Keys.loop, stringsSplitN2_head, ih, List.map_cons, List.append_assoc,
      List.singleton_append]

theorem Carrier.Keys_eq (c : Carrier) :
    Carrier.Keys (some c) = List.replicate c.Env.length "" ++ c.Env.map entryName := by
  simp [Carrier.Keys, Carrier.Keys.loop_eq_append]

/-- C9 fails on the code: `Keys` starts from `len(Env)` empty strings and appends the names
after them, so for the one entry `PATH=/bin` it returns two elements, the first one empty;
for every carrier the result has twice the length of `Env`. -/
theorem Carrier.Keys_leading_empty :
    Carrier.Keys (some { Env := ["PATH=/bin"] }) = ["", "PATH"] ∧
    (Carrier.Keys (some { Env := ["PATH=/bin"] })).length ≠ ["PATH=/bin"].length ∧
    (Carrier.Keys (some { Env := ["PATH=/bin"] }))[0]? ≠ some (entryName "PATH=/bin") ∧
    ∀ c : Carrier, (Carrier.Keys (some c)).length = 2 * c.Env.length := by
  refine ⟨by decide, by decide, by decide, ?_⟩
  intro c
  simp [Carrier.Keys_eq]
  omega

theorem Carrier.Set.loop_none (Env : List String) (key value : String) (i : Nat)
    (rest : List String) (h : ∀ e ∈ rest, stringsHasPrefix e (key ++ "=") = false) :
    Carrier.Set.loop Env key value i rest = none := by
  induction rest generalizing i with
  | nil => rfl
  | cons e rest ih =>
    have he := h e (List.mem_cons_self _ _)
    simp only [Carrier.Set.loop, he, Bool.false_eq_true, if_false]
    exact ih (i + 1) (fun x hx => h x (List.mem_cons_of_mem _ hx))

theorem Carrier.Set.loop_some (Env : List String) (key value : String) (i : Nat)
    (a : List String) (e : String) (b : List String)
    (ha : ∀ x ∈ a, stringsHasPrefix x (key ++ "=") = false)
    (he : stringsHasPrefix e (key ++ "=") = true) :
    Carrier.Set.loop Env key value i (a ++ e :: b) =
      some (Env.take (i + a.length) ++ ([key ++ "=" ++ value] ++ Env.drop (i + a.length + 1))) := by
  induction a generalizing i with
  | nil => simp [Carrier.Set.loop, he]
  | cons x a ih =>
    have hx := ha x (List.mem_cons_self _ _)
    have step : Carrier.Set.loop Env key value i (x :: (a ++ e :: b))
        = Carrier.Set.loop Env key value (i + 1) (a ++ e :: b) := by
      simp only [Carrier.Set.loop, hx, Bool.false_eq_true, if_false]
    have e1 : i + 1 + a.length = i + (x :: a).length := by
      simp only [List.length_cons]
      omega
    rw [List.cons_append, step, ih (i + 1) (fun y hy => ha y (List.mem_cons_of_mem _ hy)), e1]

/-- C10: with `K = toKey key`, when some entry of the list starts with `K=`, `Set` leaves the
length as it is, puts `K=value` at the index of the first such entry and leaves every other
index as it was; when no entry starts with `K=`, `Set` appends `K=value` at the end.  So
`TRACEPARENT=old` is replaced where it stands. -/
theorem Carrier.Set_spec (u : UnicodeTables) (L : List String) (key value : String) :
    (∀ (i : Nat) (hi : i < L.length),
      stringsHasPrefix (L.get ⟨i, hi⟩) (toKey u key ++ "=") = true →
      (∀ (j : Nat) (hj : j < L.length), j < i →
        stringsHasPrefix (L.get ⟨j, hj⟩) (toKey u key ++ "=") = false) →
      ∃ L' : List String, Carrier.Set u (some { Env := L }) key value = some { Env := L' } ∧
        L'.length = L.length ∧ L'[i]? = some (toKey u key ++ "=" ++ value) ∧
        ∀ j : Nat, j ≠ i → L'[j]? = L[j]?) ∧
    ((∀ e ∈ L, stringsHasPrefix e (toKey u key ++ "=") = false) →
      Carrier.Set u (some { Env := L }) key value
        = some { Env := L ++ [toKey u key ++ "=" ++ value] }) ∧
    Carrier.Set .ascii (some { Env := ["PATH=/bin", "TRACEPARENT=old", "TERM=xterm"] })
        "traceparent" "new"
      = some { Env := ["PATH=/bin", "TRACEPARENT=new", "TERM=xterm"] } ∧
    Carrier.Set .ascii (some { Env := ["PATH=/bin"] }) "traceparent" "new"
      = some { Env := ["PATH=/bin", "TRACEPARENT=new"] } := by
  refine ⟨?_, ?_, by decide, by decide⟩
  · intro i hi hpre hfirst
    have hsplit : L = L.take i ++ L.get ⟨i, hi⟩ :: L.drop (i + 1) := by
      rw [List.get_eq_getElem, ← List.drop_eq_getElem_cons hi, List.take_append_drop]
    have ha : ∀ x ∈ L.take i, stringsHasPrefix x (toKey u key ++ "=") = false := by
      intro x hx
      obtain ⟨j, hj, rfl⟩ := List.mem_take_iff_getElem.mp hx
      have hj' : j < i ∧ j < L.length := by
        simpa [Nat.lt_min] using hj
      exact hfirst j hj'.2 hj'.1
    have hloop := Carrier.Set.loop_some L (toKey u key) value 0 (L.take i) (L.get ⟨i, hi⟩)
      (L.drop (i + 1)) ha hpre
    rw [← hsplit] at hloop
    have hlen : (L.take i).length = i := List.length_take_of_le (Nat.le_of_lt hi)
    rw [hlen, Nat.zero_add] at hloop
    have hset : L.take i ++ ([toKey u key ++ "=" ++ value] ++ L.drop (i + 1))
        = L.set i (toKey u key ++ "=" ++ value) := by
      rw [List.set_eq_take_append_cons_drop, if_pos hi]
      rfl
    rw [hset] at hloop
    refine ⟨L.set i (toKey u key ++ "=" ++ value), ?_, List.length_set .., ?_, ?_⟩
    · simp only [Carrier.Set, hloop]
    · exact List.getElem?_set_self hi
    · intro j hj
      exact List.getElem?_set_ne (fun h => hj h.symm)
  · intro hno
    have hloop := Carrier.Set.loop_none L (toKey u key) value 0 L hno
    simp only [Carrier.Set, hloop]

/-! ## Lemmas on keys and entries -/

theorem toKey_mem (u : UnicodeTables) (key : String) (c : Char) (h : c ∈ (toKey u key).data) :
    unicodeIsLetter u c = true ∨ unicodeIsNumber u c = true ∨ c = '_' := by
  simp only [toKey, stringsMap, List.mem_filterMap] at h
  obtain ⟨a, _, ha⟩ := h
  by_cases hc : unicodeIsLetter u a = true ∨ unicodeIsNumber u a = true ∨ a = '_'
  · rw [if_pos hc] at ha
    cases Option.some.inj ha
    exact hc
  · rw [if_neg hc] at ha
    cases ha

theorem toKey_no_eq (u : UnicodeTables) (key : String) : '=' ∉ (toKey u key).data := by
  intro h
  rcases toKey_mem u key '=' h with h | h | h
  · exact absurd h (by simp [unicodeIsLetter])
  · exact absurd h (by simp [unicodeIsNumber])
  · exact absurd h (by decide)

theorem toKey_no_hyphen (u : UnicodeTables) (key : String) : '-' ∉ (toKey u key).data := by
  intro h
  rcases toKey_mem u key '-' h with h | h | h
  · exact absurd h (by simp [unicodeIsLetter])
  · exact absurd h (by simp [unicodeIsNumber])
  · exact absurd h (by decide)

theorem takeWhile_ne_eq_of_split (k t : List Char) (hk : '=' ∉ k) :
    (k ++ '=' :: t).takeWhile (fun r => decide (r ≠ '=')) = k ∧
    (k ++ '=' :: t).dropWhile (fun r => decide (r ≠ '=')) = '=' :: t := by
  have hp : ∀ a ∈ k, (fun r => decide (r ≠ '=')) a = true := by
    intro a ha
    have : a ≠ '=' := fun e => hk (e ▸ ha)
    simpa using this
  rw [List.takeWhile_append_of_pos hp, List.dropWhile_append_of_pos hp]
  simp

theorem split_of_mem_eq (l : List Char) (h : '=' ∈ l) :
    l = l.takeWhile (fun r => decide (r ≠ '=')) ++
      '=' :: (l.dropWhile (fun r => decide (r ≠ '='))).drop 1 := by
  have hsplit := List.takeWhile_append_dropWhile (fun r => decide (r ≠ '=')) l
  cases hd : l.dropWhile (fun r => decide (r ≠ '=')) with
  | nil =>
    have hall := List.dropWhile_eq_nil_iff.mp hd
    have := hall '=' h
    simp at this
  | cons c rest =>
    have hne : l.dropWhile (fun r => decide (r ≠ '=')) ≠ [] := by
      rw [hd]
      exact List.cons_ne_nil _ _
    have hhead := List.head_dropWhile_not (fun r => decide (r ≠ '=')) l hne
    have hc : c = '=' := by
      simp only [hd, List.head_cons] at hhead
      simpa using hhead
    subst hc
    rw [hd] at hsplit
    simpa using hsplit.symm

theorem takeWhile_ne_not_mem (l : List Char) :
    '=' ∉ l.takeWhile (fun r => decide (r ≠ '=')) := by
  intro h
  have := List.mem_takeWhile_imp h
  simp at this

/-- Prefix test of `Get` and `Set` on a key without `=`: the entry has a `=` and the part
before its first `=` is the key. -/
theorem stringsHasPrefix_key_iff (e K : String) (hK : '=' ∉ K.data) :
    stringsHasPrefix e (K ++ "=") = true ↔ entryName? e = some K := by
  rw [stringsHasPrefix_iff]
  constructor
  · rintro ⟨rest, rfl⟩
    have hd : (K ++ "=" ++ rest).data = K.data ++ '=' :: rest.data := by
      simp [String.data_append]
    have hmem : '=' ∈ (K ++ "=" ++ rest).data := by
      rw [hd]
      simp
    simp only [entryName?, if_pos hmem, entryName, Option.some.injEq]
    apply String.ext
    rw [hd]
    exact (takeWhile_ne_eq_of_split K.data rest.data hK).1
  · intro h
    by_cases hmem : '=' ∈ e.data
    · simp only [entryName?, if_pos hmem, Option.some.injEq] at h
      refine ⟨entryValue e, String.ext ?_⟩
      rw [← h]
      have := split_of_mem_eq e.data hmem
      simpa [String.data_append, entryName, entryValue] using this
    · simp [entryName?, hmem] at h

theorem stringsTrimPrefix_append (pre rest : String) :
    stringsHasPrefix (pre ++ rest) pre = true ∧ stringsTrimPrefix (pre ++ rest) pre = rest := by
  have h : stringsHasPrefix (pre ++ rest) pre = true := (stringsHasPrefix_iff _ _).mpr ⟨rest, rfl⟩
  refine ⟨h, ?_⟩
  simp only [stringsTrimPrefix, h, if_true]
  apply String.ext
  simp [String.data_append]

theorem stringsTrimPrefix_key (e K : String) (hK : '=' ∉ K.data)
    (h : stringsHasPrefix e (K ++ "=") = true) :
    stringsTrimPrefix e (K ++ "=") = entryValue e := by
  obtain ⟨rest, rfl⟩ := (stringsHasPrefix_iff _ _).mp h
  have hd : (K ++ "=" ++ rest).data = K.data ++ '=' :: rest.data := by
    simp [String.data_append]
  rw [(stringsTrimPrefix_append (K ++ "=") rest).2]
  apply String.ext
  simp only [entryValue, hd, (takeWhile_ne_eq_of_split K.data rest.data hK).2]
  rfl

theorem entryName_written (K v : String) (hK : '=' ∉ K.data) :
    entryName (K ++ "=" ++ v) = K ∧ '=' ∈ (K ++ "=" ++ v).data ∧
      entryName? (K ++ "=" ++ v) = some K := by
  have h := (stringsHasPrefix_key_iff (K ++ "=" ++ v) K hK).mp
    ((stringsHasPrefix_iff _ _).mpr ⟨v, rfl⟩)
  have hmem : '=' ∈ (K ++ "=" ++ v).data := by
    simp [String.data_append]
  refine ⟨?_, hmem, h⟩
  simpa [entryName?, hmem] using h

theorem exists_first_match {α : Type} (p : α → Bool) (L : List α) :
    (∀ x ∈ L, p x = false) ∨
      ∃ a e b, L = a ++ e :: b ∧ (∀ x ∈ a, p x = false) ∧ p e = true := by
  induction L with
  | nil => exact Or.inl (by simp)
  | cons x rest ih =>
    by_cases hx : p x = true
    · exact Or.inr ⟨[], x, rest, rfl, by simp, hx⟩
    · have hx' : p x = false := by simpa using hx
      rcases ih with h | ⟨a, e, b, rfl, ha, he⟩
      · left
        intro y hy
        rcases List.mem_cons.mp hy with rfl | hy
        · exact hx'
        · exact h y hy
      · right
        refine ⟨x :: a, e, b, rfl, ?_, he⟩
        intro y hy
        rcases List.mem_cons.mp hy with rfl | hy
        · exact hx'
        · exact ha y hy

/-- Result of `Set` on a non-nil carrier: the entry is appended when no entry matches, and put
in the place of the first matching entry otherwise. -/
theorem Carrier.Set_cases (u : UnicodeTables) (L : List String) (key value : String) :
    ((∀ x ∈ L, stringsHasPrefix x (toKey u key ++ "=") = false) ∧
      Carrier.Set u (some { Env := L }) key value
        = some { Env := L ++ [toKey u key ++ "=" ++ value] }) ∨
    ∃ a e b, L = a ++ e :: b ∧ (∀ x ∈ a, stringsHasPrefix x (toKey u key ++ "=") = false) ∧
      stringsHasPrefix e (toKey u key ++ "=") = true ∧
      Carrier.Set u (some { Env := L }) key value
        = some { Env := a ++ (toKey u key ++ "=" ++ value) :: b } := by
  rcases exists_first_match (fun x => stringsHasPrefix x (toKey u key ++ "=")) L with
    h | ⟨a, e, b, hL, ha, he⟩
  · left
    refine ⟨h, ?_⟩
    have hloop := Carrier.Set.loop_none L (toKey u key) value 0 L h
    simp only [Carrier.Set, hloop]
  · right
    refine ⟨a, e, b, hL, ha, he, ?_⟩
    have hloop := Carrier.Set.loop_some L (toKey u key) value 0 a e b ha he
    rw [← hL] at hloop
    simp only [Carrier.Set, hloop, Nat.zero_add]
    subst hL
    simp

theorem Carrier.Get.loop_filter (key : String) (L : List String) :
    Carrier.Get.loop key L
      = Carrier.Get.loop key (L.filter (fun e => stringsHasPrefix e (key ++ "="))) := by
  induction L with
  | nil => rfl
  | cons e rest ih =>
    by_cases he : stringsHasPrefix e (key ++ "=") = true
    · simp [Carrier.Get.loop, he]
    · have he' : stringsHasPrefix e (key ++ "=") = false := by simpa using he
      simp [Carrier.Get.loop, he', ih]

theorem Carrier.Get.loop_skip (key : String) (a rest : List String)
    (ha : ∀ x ∈ a, stringsHasPrefix x (key ++ "=") = false) :
    Carrier.Get.loop key (a ++ rest) = Carrier.Get.loop key rest := by
  induction a with
  | nil => rfl
  | cons x a ih =>
    have hx := ha x (List.mem_cons_self _ _)
    simp only [List.cons_append, Carrier.Get.loop, hx, Bool.false_eq_true, if_false]
    exact ih (fun y hy => ha y (List.mem_cons_of_mem _ hy))

theorem Carrier.Get.loop_find (K : String) (hK : '=' ∉ K.data) (L : List String) :
    Carrier.Get.loop K L
      = ((L.find? (fun e => decide (entryName? e = some K))).map entryValue).getD "" := by
  induction L with
  | nil => rfl
  | cons e rest ih =>
    by_cases he : stringsHasPrefix e (K ++ "=") = true
    · have hn := (stringsHasPrefix_key_iff e K hK).mp he
      simp [Carrier.Get.loop, he, hn, stringsTrimPrefix_key e K hK he]
    · have hn : ¬ entryName? e = some K := fun h => he ((stringsHasPrefix_key_iff e K hK).mpr h)
      have he' : stringsHasPrefix e (K ++ "=") = false := by simpa using he
      simp [Carrier.Get.loop, he', hn, ih]

/-- C11: `Get` returns the text after the first `=` of the first entry whose name, the part
before its first `=`, is `toKey key`, and the empty string when no entry has that name.  The
prefix test of the code is this test on the name, as `toKey key` has no `=`; an entry without
`=` has no name and is passed over. -/
theorem Carrier.Get_spec (u : UnicodeTables) (L : List String) (key : String) :
    Carrier.Get u (some { Env := L }) key
      = ((L.find? (fun e => decide (entryName? e = some (toKey u key)))).map entryValue).getD ""
    ∧ (∀ e : String, stringsHasPrefix e (toKey u key ++ "=") = true
        ↔ entryName? e = some (toKey u key))
    ∧ '=' ∉ (toKey u key).data
    ∧ Carrier.Get .ascii (some { Env := ["PATH=/bin", "FOO", "FOO=bar=baz", "FOO=later"] }) "foo"
        = "bar=baz"
    ∧ Carrier.Get .ascii (some { Env := ["PATH=/bin"] }) "foo" = "" := by
  refine ⟨?_, fun e => stringsHasPrefix_key_iff e _ (toKey_no_eq u key), toKey_no_eq u key,
    by decide, by decide⟩
  exact Carrier.Get.loop_find (toKey u key) (toKey_no_eq u key) L

/-- After `Set(k, v)` the scan of `Get` for the normalized key of `k` ends at the entry that
`Set` wrote. -/
theorem Carrier.Get.loop_after_Set (u : UnicodeTables) (L : List String) (k v : String) :
    ∃ env, Carrier.Set u (some { Env := L }) k v = some { Env := env } ∧
      Carrier.Get.loop (toKey u k) env = v := by
  have hnew := stringsTrimPrefix_append (toKey u k ++ "=") v
  rcases Carrier.Set_cases u L k v with ⟨hno, hset⟩ | ⟨a, e, b, _, ha, _, hset⟩
  · refine ⟨_, hset, ?_⟩
    rw [Carrier.Get.loop_skip _ L _ hno]
    simp only [Carrier.Get.loop, hnew.1, if_true, hnew.2]
  · refine ⟨_, hset, ?_⟩
    rw [Carrier.Get.loop_skip _ a _ ha]
    simp only [Carrier.Get.loop, hnew.1, if_true, hnew.2]

/-- C12: after `Set(k1, v)` on a carrier over any list, `Get(k2)` returns `v` for every key
`k2` with the same normalized key as `k1`, whatever the list held for that key and whatever
`v` is. -/
theorem Carrier.Get_Set_roundtrip (u : UnicodeTables) (L : List String) (v k1 k2 : String)
    (h : toKey u k1 = toKey u k2) :
    Carrier.Get u (Carrier.Set u (some { Env := L }) k1 v) k2 = v := by
  obtain ⟨env, hset, hget⟩ := Carrier.Get.loop_after_Set u L k1 v
  rw [hset]
  simp only [Carrier.Get, ← h]
  exact hget

/-- Witness of C12: two old entries for the key, a value with `=`, keys `trace-id` and
`Trace_Id`. -/
theorem Carrier.Get_Set_roundtrip_witness :
    toKey .ascii "trace-id" = toKey .ascii "Trace_Id" ∧
    Carrier.Get .ascii
      (Carrier.Set .ascii (some { Env := ["TRACE_ID=old", "PATH=/bin", "TRACE_ID=older"] })
        "trace-id" "a=b") "Trace_Id" = "a=b" :=
  ⟨by decide, Carrier.Get_Set_roundtrip .ascii ["TRACE_ID=old", "PATH=/bin", "TRACE_ID=older"]
    "a=b" "trace-id" "Trace_Id" (by decide)⟩

theorem toKey_data (u : UnicodeTables) (key : String) :
    (toKey u key).data = key.data.filterMap (normalizeChar u) := by
  simp only [toKey, stringsMap, stringsToUpper, stringsReplaceAll]
  induction key.data with
  | nil => rfl
  | cons r rest ih =>
    simp only [List.filterMap_cons, List.map_cons, normalizeChar] at ih ⊢
    split <;> simp_all

theorem normalizeKey_data (u : UnicodeTables) (key : String) :
    (normalizeKey u key).data = key.data.filterMap (normalizeChar u) := by
  simp only [normalizeKey]
  induction key.data with
  | nil => rfl
  | cons r rest ih =>
    simp only [List.filterMap_cons, List.map_cons, List.filter_cons, normalizeChar] at ih ⊢
    split
    · simp_all
    · by_cases hk : unicodeIsLetter u (unicodeToUpper u r) = true ∨
          unicodeIsNumber u (unicodeToUpper u r) = true ∨ unicodeToUpper u r = '_'
      · simp_all [or_assoc]
      · simp_all [or_assoc]

/-- C13: `toKey` is the key in upper case, with every `-` then replaced by `_`, and every
character that then is not a letter, a number or `_` deleted; a hyphen so becomes an
underscore and is not deleted.  The four example keys normalize as stated. -/
theorem toKey_spec (u : UnicodeTables) (key : String) :
    toKey u key = normalizeKey u key ∧
    (toKey u key).data = key.data.filterMap (normalizeChar u) ∧
    normalizeChar u '-' = some '_' ∧
    toKey u "trace-id" = "TRACE_ID" ∧ toKey u "TRACE-ID" = "TRACE_ID" ∧
    toKey u "Trace_Id" = "TRACE_ID" ∧ toKey u "X-B3-TraceId" = "X_B3_TRACEID" := by
  refine ⟨String.ext ?_, toKey_data u key, rfl, rfl, rfl, rfl, rfl⟩
  rw [toKey_data, normalizeKey_data]

/-- C17: on a nil carrier `Get` returns the empty string, `Set` leaves the carrier nil and
`Keys` returns no element. -/
theorem Carrier.nil_safe (u : UnicodeTables) (key value : String) :
    Carrier.Get u none key = "" ∧ Carrier.Set u none key value = none ∧
      Carrier.Keys none = [] :=
  ⟨rfl, rfl, rfl⟩

/-- C20: for every span, nil included, `ContextCancelNormal()` and
`ErrorNormal("context canceled")` without required attributes either both return the span
unchanged, or both return a wrapper of it with the same status, of code `Ok`, and the same
attributes, those of the span followed by `message="context canceled"`. -/
theorem ContextCancelNormal_eq_ErrorNormal (sliceEq : Value → Value → Bool)
    (s : Option ReadOnlySpan) :
    (ContextCancelNormal s = s ∧ ErrorNormal sliceEq "context canceled" [] s = s) ∨
    (∃ t, s = some t ∧
      ContextCancelNormal s = some (.contextCancelNormal t) ∧
      ErrorNormal sliceEq "context canceled" [] s
        = some (.errorNormal t "context canceled") ∧
      (ReadOnlySpan.contextCancelNormal t).Status
        = (ReadOnlySpan.errorNormal t "context canceled").Status ∧
      (ReadOnlySpan.contextCancelNormal t).Status.Code = .Ok ∧
      (ReadOnlySpan.contextCancelNormal t).Attributes
        = t.Attributes ++ [attributeString "message" "context canceled"] ∧
      (ReadOnlySpan.errorNormal t "context canceled").Attributes
        = t.Attributes ++ [attributeString "message" "context canceled"]) := by
  cases s with
  | none => exact Or.inl ⟨rfl, rfl⟩
  | some t =>
    by_cases h : t.Status.Code = .Error ∧ t.Status.Description = "context canceled"
    · right
      refine ⟨t, rfl, ?_, ?_, rfl, rfl, rfl, rfl⟩
      · simp [ContextCancelNormal, contextCanceledError, h.1, h.2]
      · simp [ErrorNormal, ErrorNormal.allFound, h.1, h.2]
    · left
      constructor
      · simp only [ContextCancelNormal, contextCanceledError]
        rw [if_neg h]
      · simp only [ErrorNormal]
        rw [if_neg h]

theorem stringsHasPrefix_other_key (x K1 K2 : String) (hK2 : '=' ∉ K2.data)
    (hx : entryName? x = some K1) (hne : K1 ≠ K2) :
    stringsHasPrefix x (K2 ++ "=") = false := by
  cases hp : stringsHasPrefix x (K2 ++ "=") with
  | false => rfl
  | true =>
    have h2 := (stringsHasPrefix_key_iff x K2 hK2).mp hp
    rw [hx] at h2
    exact absurd (Option.some.inj h2) hne

/-- C15: `Set(k1, v)` leaves `Get(k2)` as it was for every key `k2` with another normalized
key; the list after the call is the old list with the new entry appended, or with the new
entry in the place of one old entry, so all other entries keep their content and order.  On a
nil carrier `Get` returns the empty string before and after. -/
theorem Carrier.Set_frame (u : UnicodeTables) (L : List String) (v k1 k2 : String)
    (h : toKey u k1 ≠ toKey u k2) :
    Carrier.Get u (Carrier.Set u (some { Env := L }) k1 v) k2
      = Carrier.Get u (some { Env := L }) k2 ∧
    (Carrier.Set u (some { Env := L }) k1 v
        = some { Env := L ++ [toKey u k1 ++ "=" ++ v] } ∨
      ∃ a e b, L = a ++ e :: b ∧
        Carrier.Set u (some { Env := L }) k1 v
          = some { Env := a ++ (toKey u k1 ++ "=" ++ v) :: b }) ∧
    Carrier.Get u (Carrier.Set u none k1 v) k2 = Carrier.Get u none k2 := by
  have hK1 := toKey_no_eq u k1
  have hK2 := toKey_no_eq u k2
  rw [← and_assoc]
  refine ⟨?_, rfl⟩
  have hnew : stringsHasPrefix (toKey u k1 ++ "=" ++ v) (toKey u k2 ++ "=") = false :=
    stringsHasPrefix_other_key _ _ _ hK2 (entryName_written (toKey u k1) v hK1).2.2 h
  rcases Carrier.Set_cases u L k1 v with ⟨_, hset⟩ | ⟨a, e, b, hL, _, he, hset⟩
  · refine ⟨?_, Or.inl hset⟩
    rw [hset]
    simp only [Carrier.Get]
    rw [Carrier.Get.loop_filter _ (L ++ _), Carrier.Get.loop_filter _ L]
    simp [List.filter_append, hnew]
  · refine ⟨?_, Or.inr ⟨a, e, b, hL, hset⟩⟩
    have hold : stringsHasPrefix e (toKey u k2 ++ "=") = false :=
      stringsHasPrefix_other_key _ _ _ hK2 ((stringsHasPrefix_key_iff e _ hK1).mp he) h
    rw [hset, hL]
    simp only [Carrier.Get]
    rw [Carrier.Get.loop_filter _ (a ++ _ :: b), Carrier.Get.loop_filter _ (a ++ e :: b)]
    simp [List.filter_append, List.filter_cons, hnew, hold]

/-- Witness of C15: setting `traceparent` between `PATH` and `TERM`, reading `term`. -/
theorem Carrier.Set_frame_witness :
    toKey .ascii "traceparent" ≠ toKey .ascii "term" ∧
    Carrier.Get .ascii
      (Carrier.Set .ascii (some { Env := ["PATH=/bin", "TRACEPARENT=old", "TERM=xterm"] })
        "traceparent" "new") "term" = "xterm" :=
  ⟨by decide,
    (Carrier.Set_frame .ascii ["PATH=/bin", "TRACEPARENT=old", "TERM=xterm"] "new"
      "traceparent" "term" (by decide)).1.trans (by decide)⟩

theorem unicodeToUpper_of_ascii (u : UnicodeTables) (r : Char) (h : r.toNat ≤ 127) :
    unicodeToUpper u r = unicodeToUpper .ascii r := by
  simp [unicodeToUpper, h]

theorem unicodeToUpper_ascii_table :
    ∀ n, n < 128 → (unicodeToUpper .ascii (Char.ofNat n)).toNat ≤ 127 ∧
      unicodeToUpper .ascii (unicodeToUpper .ascii (Char.ofNat n))
        = unicodeToUpper .ascii (Char.ofNat n) := by
  decide

theorem unicodeToUpper_idem (u : UnicodeTables)
    (hup : ∀ r : Char, 127 < r.toNat → unicodeToUpper u (u.ToUpper r) = u.ToUpper r) (r : Char) :
    unicodeToUpper u (unicodeToUpper u r) = unicodeToUpper u r := by
  by_cases h : r.toNat ≤ 127
  · have hfacts := unicodeToUpper_ascii_table r.toNat (by omega)
    rw [Char.ofNat_toNat] at hfacts
    rw [unicodeToUpper_of_ascii u r h, unicodeToUpper_of_ascii u _ hfacts.1]
    exact hfacts.2
  · have hr : unicodeToUpper u r = u.ToUpper r := by simp [unicodeToUpper, h]
    rw [hr]
    exact hup r (by omega)

theorem toKey_upper_fixed (u : UnicodeTables)
    (hup : ∀ r : Char, 127 < r.toNat → unicodeToUpper u (u.ToUpper r) = u.ToUpper r)
    (key : String) (c : Char) (hc : c ∈ (toKey u key).data) : normalizeChar u c = some c := by
  have hkeep := toKey_mem u key c hc
  rw [toKey_data, List.mem_filterMap] at hc
  obtain ⟨r, _, hr⟩ := hc
  have hfix : unicodeToUpper u c = c := by
    simp only [normalizeChar] at hr
    by_cases hd : unicodeToUpper u r = '-'
    · simp only [hd, if_true] at hr
      split at hr
      · cases Option.some.inj hr
        rfl
      · cases hr
    · simp only [hd, if_false] at hr
      split at hr
      · cases Option.some.inj hr
        exact unicodeToUpper_idem u hup r
      · cases hr
  have hne : c ≠ '-' := by
    rintro rfl
    rcases hkeep with h | h | h
    · exact absurd h (by simp [unicodeIsLetter])
    · exact absurd h (by simp [unicodeIsNumber])
    · exact absurd h (by decide)
  simp only [normalizeChar, hfix, hne, if_false]
  rw [if_pos hkeep]

theorem filterMap_eq_self_of_some {α : Type} (f : α → Option α) (l : List α)
    (h : ∀ a ∈ l, f a = some a) : l.filterMap f = l := by
  induction l with
  | nil => rfl
  | cons a rest ih =>
    rw [List.filterMap_cons, h a (List.mem_cons_self _ _)]
    simp only [List.cons.injEq, true_and]
    exact ih (fun b hb => h b (List.mem_cons_of_mem _ hb))

theorem toKey_toKey (u : UnicodeTables)
    (hup : ∀ r : Char, 127 < r.toNat → unicodeToUpper u (u.ToUpper r) = u.ToUpper r)
    (key : String) : toKey u (toKey u key) = toKey u key := by
  apply String.ext
  rw [toKey_data u (toKey u key)]
  exact filterMap_eq_self_of_some _ _ (fun c hc => toKey_upper_fixed u hup key c hc)

/-- C18: when the upper-case table is idempotent, `toKey` is idempotent.  For every table the
result of `toKey` holds only letters, numbers and `_`, so no `=` and no `-`; the entry that
`Set(key, v)` writes is in the list and its name is `toKey key`; and `Get` with that name
finds the value. -/
theorem toKey_idempotent (u : UnicodeTables) (L : List String) (key v : String)
    (hup : ∀ r : Char, 127 < r.toNat → unicodeToUpper u (u.ToUpper r) = u.ToUpper r) :
    toKey u (toKey u key) = toKey u key ∧
    (∀ c ∈ (toKey u key).data,
      unicodeIsLetter u c = true ∨ unicodeIsNumber u c = true ∨ c = '_') ∧
    '=' ∉ (toKey u key).data ∧ '-' ∉ (toKey u key).data ∧
    (∃ env, Carrier.Set u (some { Env := L }) key v = some { Env := env } ∧
      toKey u key ++ "=" ++ v ∈ env) ∧
    entryName (toKey u key ++ "=" ++ v) = toKey u key ∧
    Carrier.Get u (Carrier.Set u (some { Env := L }) key v)
      (entryName (toKey u key ++ "=" ++ v)) = v := by
  have hname := (entryName_written (toKey u key) v (toKey_no_eq u key)).1
  refine ⟨toKey_toKey u hup key, fun c hc => toKey_mem u key c hc, toKey_no_eq u key,
    toKey_no_hyphen u key, ?_, hname, ?_⟩
  · rcases Carrier.Set_cases u L key v with ⟨_, hset⟩ | ⟨a, e, b, _, _, _, hset⟩
    · exact ⟨_, hset, by simp⟩
    · exact ⟨_, hset, by simp⟩
  · obtain ⟨env, hset, hget⟩ := Carrier.Get.loop_after_Set u L key v
    rw [hset, hname]
    simp only [Carrier.Get, toKey_toKey u hup key]
    exact hget

/-- Witness of C18: the ASCII tables, key `x-b3-traceid`. -/
theorem toKey_idempotent_witness :
    (∀ r : Char, 127 < r.toNat →
      unicodeToUpper .ascii (UnicodeTables.ascii.ToUpper r) = UnicodeTables.ascii.ToUpper r) ∧
    toKey .ascii (toKey .ascii "x-b3-traceid") = toKey .ascii "x-b3-traceid" ∧
    Carrier.Get .ascii (Carrier.Set .ascii (some { Env := ["PATH=/bin"] }) "x-b3-traceid" "1")
      (entryName (toKey .ascii "x-b3-traceid" ++ "=" ++ "1")) = "1" :=
  have hup : ∀ r : Char, 127 < r.toNat →
      unicodeToUpper .ascii (UnicodeTables.ascii.ToUpper r) = UnicodeTables.ascii.ToUpper r := by
    intro r hr
    have : ¬ r.toNat ≤ 127 := by omega
    simp [unicodeToUpper, UnicodeTables.ascii, this]
  ⟨hup, (toKey_idempotent .ascii ["PATH=/bin"] "x-b3-traceid" "1" hup).1,
    (toKey_idempotent .ascii ["PATH=/bin"] "x-b3-traceid" "1" hup).2.2.2.2.2.2⟩

/-! ## Sequences of `Set` calls -/

theorem countName_eq_count (name : String) (L : List String) :
    countName name L = (L.map entryName).count name := by
  induction L with
  | nil => rfl
  | cons e rest ih =>
    simp only [countName, List.map_cons, List.count_cons, List.filter_cons] at ih ⊢
    by_cases h : entryName e = name
    · simp [h, ih]
    · simp [h, ih]

theorem entryName_of_entryName? (e K : String) (h : entryName? e = some K) :
    '=' ∈ e.data ∧ entryName e = K := by
  by_cases hmem : '=' ∈ e.data
  · simp only [entryName?, if_pos hmem, Option.some.injEq] at h
    exact ⟨hmem, h⟩
  · simp [entryName?, hmem] at h

/-- One `Set` on a well-formed list: the list stays well-formed and its names are the old
names and the normalized key. -/
theorem Carrier.Set_wellFormed_step (u : UnicodeTables) (L : List String) (key value : String)
    (h : WellFormed L) :
    ∃ env, Carrier.Set u (some { Env := L }) key value = some { Env := env } ∧ WellFormed env ∧
      ∀ n, n ∈ env.map entryName ↔ (n ∈ L.map entryName ∨ n = toKey u key) := by
  have hK := toKey_no_eq u key
  obtain ⟨hnew, hnewmem, _⟩ := entryName_written (toKey u key) value hK
  rcases Carrier.Set_cases u L key value with ⟨hno, hset⟩ | ⟨a, e, b, hL, _, he, hset⟩
  · refine ⟨_, hset, ⟨?_, ?_⟩, ?_⟩
    · intro x hx
      rcases List.mem_append.mp hx with hx | hx
      · exact h.1 x hx
      · rw [List.mem_singleton.mp hx]
        exact hnewmem
    · rw [List.map_append, List.map_singleton, hnew]
      refine List.nodup_append.mpr ⟨h.2, List.nodup_singleton _, ?_⟩
      intro n hn hn'
      rw [List.mem_singleton.mp hn'] at hn
      obtain ⟨x, hx, hxn⟩ := List.mem_map.mp hn
      have hp : stringsHasPrefix x (toKey u key ++ "=") = true := by
        refine (stringsHasPrefix_key_iff x _ hK).mpr ?_
        simp [entryName?, h.1 x hx, hxn]
      rw [hno x hx] at hp
      cases hp
    · intro n
      rw [List.map_append, List.map_singleton, hnew, List.mem_append, List.mem_singleton]
  · obtain ⟨hemem, hename⟩ := entryName_of_entryName? e _ ((stringsHasPrefix_key_iff e _ hK).mp he)
    have hnames : (a ++ (toKey u key ++ "=" ++ value) :: b).map entryName = L.map entryName := by
      rw [hL]
      simp only [List.map_append, List.map_cons, hnew, hename]
    refine ⟨_, hset, ⟨?_, ?_⟩, ?_⟩
    · intro x hx
      rcases List.mem_append.mp hx with hx | hx
      · exact h.1 x (by rw [hL]; exact List.mem_append_left _ hx)
      · rcases List.mem_cons.mp hx with hx | hx
        · rw [hx]
          exact hnewmem
        · exact h.1 x (by rw [hL]; exact List.mem_append_right _ (List.mem_cons_of_mem _ hx))
    · rw [hnames]
      exact h.2
    · intro n
      rw [hnames]
      constructor
      · exact Or.inl
      · rintro (hn | hn)
        · exact hn
        · rw [hn, hL]
          simp [hename]

/-- A sequence of `Set` calls on a well-formed list: the list stays well-formed and its names
are the old names and the normalized keys that were set. -/
theorem Carrier.SetAll_wellFormed (u : UnicodeTables) (sets : List (String × String))
    (L : List String) (h : WellFormed L) :
    ∃ env, Carrier.SetAll u (some { Env := L }) sets = some { Env := env } ∧ WellFormed env ∧
      ∀ n, n ∈ env.map entryName ↔ (n ∈ L.map entryName ∨ ∃ kv ∈ sets, n = toKey u kv.1) := by
  induction sets generalizing L with
  | nil => exact ⟨L, rfl, h, by simp⟩
  | cons kv rest ih =>
    obtain ⟨env1, hset, hwf1, hn1⟩ := Carrier.Set_wellFormed_step u L kv.1 kv.2 h
    obtain ⟨env, hall, hwf, hn⟩ := ih env1 hwf1
    refine ⟨env, ?_, hwf, ?_⟩
    · simp only [Carrier.SetAll, List.foldl_cons, hset]
      exact hall
    · intro n
      rw [hn n, hn1 n]
      constructor
      · rintro ((h1 | h1) | ⟨kv', hkv', h1⟩)
        · exact Or.inl h1
        · exact Or.inr ⟨kv, List.mem_cons_self _ _, h1⟩
        · exact Or.inr ⟨kv', List.mem_cons_of_mem _ hkv', h1⟩
      · rintro (h1 | ⟨kv', hkv', h1⟩)
        · exact Or.inl (Or.inl h1)
        · rcases List.mem_cons.mp hkv' with rfl | hkv'
          · exact Or.inl (Or.inr h1)
          · exact Or.inr ⟨kv', hkv', h1⟩

theorem countName_le_one_of_wellFormed (env : List String) (h : WellFormed env) (name : String) :
    countName name env ≤ 1 := by
  rw [countName_eq_count]
  exact List.nodup_iff_count_le_one.mp h.2 name

theorem countName_eq_one_iff (env : List String) (h : WellFormed env) (name : String) :
    countName name env = 1 ↔ name ∈ env.map entryName := by
  rw [countName_eq_count]
  constructor
  · intro h1
    exact List.count_pos_iff.mp (by omega)
  · intro hm
    exact List.count_eq_one_of_mem h.2 hm

/-- C14 as stated fails: on the list `A=1`, `A=2` a `Set` of `a` replaces only the first entry,
and a `Set` of `b` appends, so in both results two entries have the normalized key `A`. -/
theorem Carrier.SetAll_keeps_duplicates :
    Carrier.SetAll .ascii (some { Env := ["A=1", "A=2"] }) [("a", "x")]
      = some { Env := ["A=x", "A=2"] } ∧
    countKey .ascii (toKey .ascii "a") ["A=x", "A=2"] = 2 ∧
    Carrier.SetAll .ascii (some { Env := ["A=1", "A=2"] }) [("b", "x")]
      = some { Env := ["A=1", "A=2", "B=x"] } ∧
    countKey .ascii "A" ["A=1", "A=2", "B=x"] = 2 ∧
    ¬ (∀ (L : List String) (sets : List (String × String)) (env : List String), sets ≠ [] →
        Carrier.SetAll .ascii (some { Env := L }) sets = some { Env := env } →
        ∀ e ∈ env, countKey .ascii (toKey .ascii (entryName e)) env = 1) := by
  refine ⟨by decide, by decide, by decide, by decide, ?_⟩
  intro hall
  have h1 := hall ["A=1", "A=2"] [("a", "x")] ["A=x", "A=2"] (by simp) (by decide)
    "A=x" (by simp)
  revert h1
  decide

/-- C14 amended: on a list whose entries all have a `=` and pairwise distinct names, after any
sequence of `Set` calls no name has two entries, every key that was set and every name of the
old list has exactly one entry, and no other name has one. -/
theorem Carrier.SetAll_one_entry_per_name (u : UnicodeTables) (L : List String)
    (sets : List (String × String)) (h : WellFormed L) :
    ∃ env, Carrier.SetAll u (some { Env := L }) sets = some { Env := env } ∧
      (∀ name, countName name env ≤ 1) ∧
      (∀ kv ∈ sets, countName (toKey u kv.1) env = 1) ∧
      (∀ e ∈ L, countName (entryName e) env = 1) ∧
      (∀ name, countName name env = 1 →
        (∃ e ∈ L, entryName e = name) ∨ ∃ kv ∈ sets, toKey u kv.1 = name) := by
  obtain ⟨env, hall, hwf, hn⟩ := Carrier.SetAll_wellFormed u sets L h
  refine ⟨env, hall, countName_le_one_of_wellFormed env hwf, ?_, ?_, ?_⟩
  · intro kv hkv
    exact (countName_eq_one_iff env hwf _).mpr ((hn _).mpr (Or.inr ⟨kv, hkv, rfl⟩))
  · intro e he
    exact (countName_eq_one_iff env hwf _).mpr ((hn _).mpr (Or.inl (List.mem_map_of_mem _ he)))
  · intro name h1
    rcases (hn name).mp ((countName_eq_one_iff env hwf name).mp h1) with hm | ⟨kv, hkv, hk⟩
    · obtain ⟨e, he, hen⟩ := List.mem_map.mp hm
      exact Or.inl ⟨e, he, hen⟩
    · exact Or.inr ⟨kv, hkv, hk.symm⟩

/-- Witness of C14 amended: the list of the injection test and the keys of both propagators. -/
theorem Carrier.SetAll_one_entry_per_name_witness :
    WellFormed ["PATH=/usr/bin:/bin", "TRACESTATE=origTraceState", "TERM=xterm"] ∧
    ∃ env, Carrier.SetAll .ascii
        (some { Env := ["PATH=/usr/bin:/bin", "TRACESTATE=origTraceState", "TERM=xterm"] })
        [("tracestate", ""), ("x-b3-sampled", "1"), ("X-B3-Sampled", "0")]
          = some { Env := env } ∧
      (∀ name, countName name env ≤ 1) ∧
      (∀ kv ∈ [("tracestate", ""), ("x-b3-sampled", "1"), ("X-B3-Sampled", "0")],
        countName (toKey .ascii kv.1) env = 1) ∧
      (∀ e ∈ ["PATH=/usr/bin:/bin", "TRACESTATE=origTraceState", "TERM=xterm"],
        countName (entryName e) env = 1) ∧
      (∀ name, countName name env = 1 →
        (∃ e ∈ ["PATH=/usr/bin:/bin", "TRACESTATE=origTraceState", "TERM=xterm"],
          entryName e = name) ∨
        ∃ kv ∈ [("tracestate", ""), ("x-b3-sampled", "1"), ("X-B3-Sampled", "0")],
          toKey .ascii kv.1 = name) :=
  have hwf : WellFormed ["PATH=/usr/bin:/bin", "TRACESTATE=origTraceState", "TERM=xterm"] :=
    ⟨by decide, by decide⟩
  ⟨hwf, Carrier.SetAll_one_entry_per_name .ascii _ _ hwf⟩

/-- C19: when every entry of the list has a `=` and no two entries have the same name, this
still holds after `Set(key, value)`; so after any sequence of `Set` calls on such a list, or on
the empty list, every entry has a `=` and no name has more than one entry. -/
theorem Carrier.Set_preserves_wellFormed (u : UnicodeTables) (L : List String)
    (key value : String) (h : WellFormed L) :
    (∃ env, Carrier.Set u (some { Env := L }) key value = some { Env := env } ∧
      (∀ e ∈ env, '=' ∈ e.data) ∧ (env.map entryName).Nodup) ∧
    (∀ sets : List (String × String), ∃ env,
      Carrier.SetAll u (some { Env := L }) sets = some { Env := env } ∧
      (∀ e ∈ env, '=' ∈ e.data) ∧ (env.map entryName).Nodup ∧
      ∀ name, countName name env ≤ 1) ∧
    (∀ sets : List (String × String), ∃ env,
      Carrier.SetAll u (some { Env := [] }) sets = some { Env := env } ∧
      (∀ e ∈ env, '=' ∈ e.data) ∧ (env.map entryName).Nodup ∧
      ∀ name, countName name env ≤ 1) := by
  have hnil : WellFormed [] := ⟨by simp, by simp⟩
  refine ⟨?_, ?_, ?_⟩
  · obtain ⟨env, hset, hwf, _⟩ := Carrier.Set_wellFormed_step u L key value h
    exact ⟨env, hset, hwf.1, hwf.2⟩
  · intro sets
    obtain ⟨env, hall, hwf, _⟩ := Carrier.SetAll_wellFormed u sets L h
    exact ⟨env, hall, hwf.1, hwf.2, countName_le_one_of_wellFormed env hwf⟩
  · intro sets
    obtain ⟨env, hall, hwf, _⟩ := Carrier.SetAll_wellFormed u sets [] hnil
    exact ⟨env, hall, hwf.1, hwf.2, countName_le_one_of_wellFormed env hwf⟩

/-- Witness of C19: `Set` of `traceparent` on a list that already has the entry. -/
theorem Carrier.Set_preserves_wellFormed_witness :
    WellFormed ["PATH=/bin", "TRACEPARENT=old"] ∧
    ∃ env, Carrier.Set .ascii (some { Env := ["PATH=/bin", "TRACEPARENT=old"] })
        "traceparent" "new" = some { Env := env } ∧
      (∀ e ∈ env, '=' ∈ e.data) ∧ (env.map entryName).Nodup :=
  have hwf : WellFormed ["PATH=/bin", "TRACEPARENT=old"] := ⟨by decide, by decide⟩
  ⟨hwf, (Carrier.Set_preserves_wellFormed .ascii _ "traceparent" "new" hwf).1⟩

/-! ## Lemmas on slices -/

theorem Slice.read_length (h : Heap) (s : Slice) : (s.read h).length = s.len := by
  simp [Slice.read]

theorem Slice.read_congr (h h' : Heap) (s : Slice)
    (hc : ∀ i, i < s.len → h'.cell s.arr (s.off + i) = h.cell s.arr (s.off + i)) :
    s.read h' = s.read h := by
  unfold Slice.read
  apply List.map_congr_left
  intro i hi
  exact hc i (List.mem_range.mp hi)

theorem map_range_getD (l : List String) :
    (List.range l.length).map (fun i => l.getD i "") = l := by
  apply List.ext_getElem
  · simp
  · intro i h1 h2
    simp [List.getElem?_eq_getElem h2]

theorem Slice.read_eq_of_cells (h : Heap) (s : Slice) (xs : List String)
    (hlen : s.len = xs.length)
    (hc : ∀ i, i < xs.length → h.cell s.arr (s.off + i) = xs.getD i "") :
    s.read h = xs := by
  unfold Slice.read
  rw [hlen]
  rw [← map_range_getD xs]
  simp only [List.length_map, List.length_range]
  apply List.map_congr_left
  intro i hi
  have hi' : i < xs.length := List.mem_range.mp hi
  rw [hc i hi']

theorem Slice.read_take (h : Heap) (s : Slice) (i : Nat) (hi : i ≤ s.len) :
    (s.sliceTo i).read h = (s.read h).take i := by
  apply List.ext_getElem
  · simp [Slice.read, Slice.sliceTo, Nat.min_eq_left hi]
  · intro j h1 h2
    simp [Slice.read, Slice.sliceTo]

theorem Slice.read_drop (h : Heap) (s : Slice) (i : Nat) :
    (s.sliceFrom i).read h = (s.read h).drop i := by
  apply List.ext_getElem
  · simp [Slice.read, Slice.sliceFrom]
  · intro j h1 h2
    simp [Slice.read, Slice.sliceFrom, Nat.add_assoc]

theorem Heap.store_cell_of_ne (h : Heap) (a p : Nat) (xs : List String) (a' i : Nat)
    (hne : a' ≠ a ∨ i < p ∨ p + xs.length ≤ i) :
    (h.store a p xs).cell a' i = h.cell a' i := by
  simp only [Heap.store]
  rw [if_neg]
  rintro ⟨h1, h2, h3⟩
  rcases hne with hne | hne | hne
  · exact hne h1
  · omega
  · omega

theorem Heap.store_cell_of_lt (h : Heap) (a p : Nat) (xs : List String) (i : Nat)
    (hi : i < xs.length) : (h.store a p xs).cell a (p + i) = xs.getD i "" := by
  simp only [Heap.store]
  rw [if_pos ⟨trivial, by omega, by omega⟩]
  congr 1
  omega

theorem Heap.alloc_cell (h : Heap) (a i : Nat) (ha : a < h.next) :
    h.alloc.2.cell a i = h.cell a i := by
  simp only [Heap.alloc]
  rw [if_neg (by omega)]

theorem goAppend_read (g : Nat → Nat → Nat) (h : Heap) (s : Slice) (xs : List String) :
    (goAppend g h s xs).1.read (goAppend g h s xs).2 = s.read h ++ xs := by
  unfold goAppend
  split
  · apply Slice.read_eq_of_cells
    · simp [Slice.read_length]
    · intro i hi
      simp only [List.length_append, Slice.read_length] at hi
      dsimp only
      by_cases hlt : i < s.len
      · rw [Heap.store_cell_of_ne _ _ _ _ _ _ (Or.inr (Or.inl (by omega)))]
        simp [Slice.read, List.getElem?_append_left, hlt]
      · have hk : i - s.len < xs.length := by omega
        have e : s.off + i = s.off + s.len + (i - s.len) := by omega
        rw [e, Heap.store_cell_of_lt _ _ _ _ _ hk]
        simp [List.getElem?_append_right, Slice.read_length, Nat.le_of_not_lt hlt]
  · apply Slice.read_eq_of_cells
    · simp [Slice.read_length]
    · intro i hi
      dsimp only
      have := Heap.store_cell_of_lt h.alloc.2 h.alloc.1 0 (s.read h ++ xs) i hi
      simpa using this

theorem goAppend_frame (g : Nat → Nat → Nat) (h : Heap) (s : Slice) (xs : List String)
    (a i : Nat) (ha : a < h.next) (hi : a = s.arr → i < s.off + s.len) :
    (goAppend g h s xs).2.cell a i = h.cell a i := by
  unfold goAppend
  split
  · apply Heap.store_cell_of_ne
    by_cases e : a = s.arr
    · exact Or.inr (Or.inl (hi e))
    · exact Or.inl e
  · have hne : a ≠ h.alloc.1 := by
      simp only [Heap.alloc]
      omega
    rw [Heap.store_cell_of_ne _ _ _ _ _ _ (Or.inl hne)]
    exact Heap.alloc_cell h a i ha

theorem goAppend_next (g : Nat → Nat → Nat) (h : Heap) (s : Slice) (xs : List String) :
    h.next ≤ (goAppend g h s xs).2.next ∧
    ((goAppend g h s xs).1.arr = s.arr ∧ (goAppend g h s xs).1.off = s.off ∧
        s.len ≤ (goAppend g h s xs).1.len ∨
      (goAppend g h s xs).1.arr = h.next ∧ h.next < (goAppend g h s xs).2.next) := by
  unfold goAppend
  split
  · exact ⟨Nat.le_refl _, Or.inl ⟨rfl, rfl, Nat.le_add_right _ _⟩⟩
  · exact ⟨Nat.le_succ _, Or.inr ⟨rfl, Nat.lt_succ_self _⟩⟩

theorem goLiteral_spec (h : Heap) (x : String) :
    (goLiteral h x).1.arr = h.next ∧ (goLiteral h x).1.off = 0 ∧ (goLiteral h x).1.len = 1 ∧
    (goLiteral h x).2.next = h.next + 1 ∧
    (goLiteral h x).1.read (goLiteral h x).2 = [x] ∧
    ∀ a i, a < h.next → (goLiteral h x).2.cell a i = h.cell a i := by
  refine ⟨rfl, rfl, rfl, rfl, ?_, ?_⟩
  · apply Slice.read_eq_of_cells
    · rfl
    · intro i hi
      exact Heap.store_cell_of_lt h.alloc.2 h.alloc.1 0 [x] i hi
  · intro a i ha
    have hne : a ≠ h.alloc.1 := by
      simp only [Heap.alloc]
      omega
    simp only [goLiteral]
    rw [Heap.store_cell_of_ne _ _ _ _ _ _ (Or.inl hne)]
    exact Heap.alloc_cell h a i ha

/-- The two statements `newEnv := make([]string, len(c.Env))` and `copy(newEnv, c.Env)`:
`newEnv` is a new array with the elements of `c.Env`, and no other array changes. -/
theorem goMake_goCopy_spec (h : Heap) (env : Slice) (henv : env.arr < h.next) :
    (goMake h env.len).1 = { arr := h.next, off := 0, len := env.len, cap := env.len } ∧
    (goCopy (goMake h env.len).2 (goMake h env.len).1 env).next = h.next + 1 ∧
    (goMake h env.len).1.read (goCopy (goMake h env.len).2 (goMake h env.len).1 env)
      = env.read h ∧
    ∀ a i, a < h.next →
      (goCopy (goMake h env.len).2 (goMake h env.len).1 env).cell a i = h.cell a i := by
  have hread : env.read h.alloc.2 = env.read h :=
    Slice.read_congr h h.alloc.2 env (fun i _ => Heap.alloc_cell h env.arr _ henv)
  refine ⟨rfl, rfl, ?_, ?_⟩
  · simp only [goCopy, goMake, hread, Nat.min_self]
    have htake : (env.read h).take env.len = env.read h := by
      rw [List.take_of_length_le]
      rw [Slice.read_length]
    rw [htake]
    apply Slice.read_eq_of_cells
    · simp [Slice.read_length]
    · intro i hi
      exact Heap.store_cell_of_lt h.alloc.2 h.alloc.1 0 (env.read h) i hi
  · intro a i ha
    have hne : a ≠ h.alloc.1 := by
      simp only [Heap.alloc]
      omega
    simp only [goCopy, goMake]
    rw [Heap.store_cell_of_ne _ _ _ _ _ _ (Or.inl hne)]
    exact Heap.alloc_cell h a i ha

theorem Carrier.SetH.loop_bound (key : String) (i : Nat) (rest : List String) (j : Nat)
    (h : Carrier.SetH.loop key i rest = some j) : i ≤ j ∧ j < i + rest.length := by
  induction rest generalizing i with
  | nil => cases h
  | cons e rest ih =>
    simp only [Carrier.SetH.loop] at h
    split at h
    · cases Option.some.inj h
      simp
    · have := ih (i + 1) h
      simp only [List.length_cons]
      omega

theorem Carrier.Set.loop_eq_index (Env : List String) (key value : String) (i : Nat)
    (rest : List String) :
    Carrier.Set.loop Env key value i rest
      = (Carrier.SetH.loop key i rest).map
          (fun j => Env.take j ++ ([key ++ "=" ++ value] ++ Env.drop (j + 1))) := by
  induction rest generalizing i with
  | nil => rfl
  | cons e rest ih =>
    simp only [Carrier.Set.loop, Carrier.SetH.loop]
    split
    · rfl
    · exact ih (i + 1)

/-- The replacement of entry `i` by `Set` writes to new arrays only, and the new `c.Env` is
the old one with `entry` at index `i`. -/
theorem Carrier.SetH.replace_spec (g : Nat → Nat → Nat) (h : Heap) (env : Slice) (i : Nat)
    (entry : String) (henv : env.arr < h.next) (hi : i < env.len) :
    h.next ≤ (Carrier.SetH.replace g h env i entry).1.arr ∧
    (Carrier.SetH.replace g h env i entry).1.arr
      < (Carrier.SetH.replace g h env i entry).2.next ∧
    (∀ a j, a < h.next → (Carrier.SetH.replace g h env i entry).2.cell a j = h.cell a j) ∧
    (Carrier.SetH.replace g h env i entry).1.read (Carrier.SetH.replace g h env i entry).2
      = (env.read h).take i ++ ([entry] ++ (env.read h).drop (i + 1)) := by
  obtain ⟨hnew, hnext2, hread2, hframe2⟩ := goMake_goCopy_spec h env henv
  simp only [Carrier.SetH.replace]
  generalize goCopy (goMake h env.len).2 (goMake h env.len).1 env = h2 at *
  generalize (goMake h env.len).1 = newEnv at *
  subst hnew
  obtain ⟨ha3, _, _, hnext3, hread3, hframe3⟩ := goLiteral_spec h2 entry
  generalize goLiteral h2 entry = r3 at *
  -- the inner `append`
  have hnew3 : ({ arr := h.next, off := 0, len := env.len, cap := env.len } : Slice).read r3.2
      = env.read h := by
    rw [← hread2]
    exact Slice.read_congr _ _ _ (fun j _ => hframe3 _ _ (by simp only; omega))
  have hxs : (({ arr := h.next, off := 0, len := env.len, cap := env.len } : Slice).sliceFrom
      (i + 1)).read r3.2 = (env.read h).drop (i + 1) := by
    rw [Slice.read_drop, hnew3]
  rw [hxs]
  have hread4 := goAppend_read g r3.2 r3.1 ((env.read h).drop (i + 1))
  have hframe4 := goAppend_frame g r3.2 r3.1 ((env.read h).drop (i + 1))
  have hnext4 := (goAppend_next g r3.2 r3.1 ((env.read h).drop (i + 1))).1
  generalize goAppend g r3.2 r3.1 ((env.read h).drop (i + 1)) = r4 at *
  rw [hread3] at hread4
  rw [hread4]
  -- the outer `append`
  have hnew4 : ({ arr := h.next, off := 0, len := env.len, cap := env.len } : Slice).read r4.2
      = env.read h := by
    rw [← hnew3]
    exact Slice.read_congr _ _ _
      (fun j _ => hframe4 _ _ (by simp only; omega) (fun e => by simp only at e; omega))
  have hto : (({ arr := h.next, off := 0, len := env.len, cap := env.len } : Slice).sliceTo
      i).read r4.2 = (env.read h).take i := by
    rw [Slice.read_take r4.2 { arr := h.next, off := 0, len := env.len, cap := env.len } i
      (Nat.le_of_lt hi), hnew4]
  have hread5 := goAppend_read g r4.2
    (({ arr := h.next, off := 0, len := env.len, cap := env.len } : Slice).sliceTo i)
    ([entry] ++ (env.read h).drop (i + 1))
  have hframe5 := goAppend_frame g r4.2
    (({ arr := h.next, off := 0, len := env.len, cap := env.len } : Slice).sliceTo i)
    ([entry] ++ (env.read h).drop (i + 1))
  have hnext5 := goAppend_next g r4.2
    (({ arr := h.next, off := 0, len := env.len, cap := env.len } : Slice).sliceTo i)
    ([entry] ++ (env.read h).drop (i + 1))
  generalize goAppend g r4.2
    (({ arr := h.next, off := 0, len := env.len, cap := env.len } : Slice).sliceTo i)
    ([entry] ++ (env.read h).drop (i + 1)) = r5 at *
  rw [hto] at hread5
  simp only [Slice.sliceTo] at hnext5 hframe5
  refine ⟨?_, ?_, ?_, hread5⟩
  · rcases hnext5.2 with ⟨e, _, _⟩ | ⟨e, _⟩
    · omega
    · omega
  · rcases hnext5.2 with ⟨e, _, _⟩ | ⟨e, hlt⟩
    · omega
    · omega
  · intro a j ha
    rw [hframe5 a j (by omega) (fun e => by omega),
      hframe4 a j (by omega) (fun e => by omega), hframe3 a j (by omega), hframe2 a j ha]

/-- One `Set` on slices: it writes only to new arrays and to the spare capacity of `c.Env`, the
new `c.Env` is the old window made longer or lies in a new array, and its elements are those
that `Set` on lists gives. -/
theorem Carrier.SetH_step (u : UnicodeTables) (g : Nat → Nat → Nat) (h : Heap) (env : Slice)
    (key value : String) (henv : env.arr < h.next) :
    h.next ≤ (Carrier.SetH u g h env key value).2.next ∧
    (Carrier.SetH u g h env key value).1.arr < (Carrier.SetH u g h env key value).2.next ∧
    (∀ a j, a < h.next → (a = env.arr → j < env.off + env.len) →
      (Carrier.SetH u g h env key value).2.cell a j = h.cell a j) ∧
    (((Carrier.SetH u g h env key value).1.arr = env.arr ∧
        (Carrier.SetH u g h env key value).1.off = env.off ∧
        env.len ≤ (Carrier.SetH u g h env key value).1.len) ∨
      h.next ≤ (Carrier.SetH u g h env key value).1.arr) ∧
    Carrier.Set u (some { Env := env.read h }) key value
      = some { Env := (Slice.read (Carrier.SetH u g h env key value).2
          (Carrier.SetH u g h env key value).1) } := by
  have hlist := Carrier.Set.loop_eq_index (env.read h) (toKey u key) value 0 (env.read h)
  cases hloop : Carrier.SetH.loop (toKey u key) 0 (env.read h) with
  | none =>
    have hS : Carrier.SetH u g h env key value
        = goAppend g h env [toKey u key ++ "=" ++ value] := by
      simp only [Carrier.SetH, hloop]
    rw [hloop] at hlist
    rw [hS]
    have hnext := goAppend_next g h env [toKey u key ++ "=" ++ value]
    refine ⟨hnext.1, ?_, goAppend_frame g h env _, ?_, ?_⟩
    · rcases hnext.2 with ⟨e, _, _⟩ | ⟨e, hlt⟩
      · omega
      · omega
    · rcases hnext.2 with hsame | ⟨e, _⟩
      · exact Or.inl hsame
      · exact Or.inr (Nat.le_of_eq e.symm)
    · rw [goAppend_read]
      simp only [Carrier.Set, hlist, Option.map_none']
  | some i =>
    have hS : Carrier.SetH u g h env key value
        = Carrier.SetH.replace g h env i (toKey u key ++ "=" ++ value) := by
      simp only [Carrier.SetH, hloop]
    have hi : i < env.len := by
      have := (Carrier.SetH.loop_bound _ _ _ _ hloop).2
      rw [Slice.read_length] at this
      omega
    rw [hloop] at hlist
    rw [hS]
    obtain ⟨h1, h2, h3, h4⟩ := Carrier.SetH.replace_spec g h env i
      (toKey u key ++ "=" ++ value) henv hi
    refine ⟨by omega, h2, fun a j ha _ => h3 a j ha, Or.inr h1, ?_⟩
    rw [h4]
    simp only [Carrier.Set, hlist, Option.map_some']

/-- A sequence of `Set` calls on slices, started on a carrier whose `Env` is the caller's
window made longer or lies in another array: the caller's window keeps its elements, and the
elements of the final `c.Env` are those that the `Set` calls on lists give. -/
theorem InjectH_invariant (u : UnicodeTables) (g : Nat → Nat → Nat) (environ : Slice)
    (sets : List (String × String)) :
    ∀ (h : Heap) (s : Slice), s.arr < h.next → environ.arr < h.next →
      (s.arr = environ.arr → s.off = environ.off ∧ environ.len ≤ s.len) →
      environ.read
          (sets.foldl (fun st kv => Carrier.SetH u g st.2 st.1 kv.1 kv.2) (s, h)).2
        = environ.read h ∧
      Carrier.SetAll u (some { Env := s.read h }) sets
        = some { Env := (Slice.read
            (sets.foldl (fun st kv => Carrier.SetH u g st.2 st.1 kv.1 kv.2) (s, h)).2
            (sets.foldl (fun st kv => Carrier.SetH u g st.2 st.1 kv.1 kv.2) (s, h)).1) } := by
  induction sets with
  | nil =>
    intro h s _ _ _
    exact ⟨rfl, rfl⟩
  | cons kv rest ih =>
    intro h s hs henv hwin
    obtain ⟨hnext, harr, hframe, hpos, hset⟩ := Carrier.SetH_step u g h s kv.1 kv.2 hs
    have hwin' : (Carrier.SetH u g h s kv.1 kv.2).1.arr = environ.arr →
        (Carrier.SetH u g h s kv.1 kv.2).1.off = environ.off ∧
          environ.len ≤ (Carrier.SetH u g h s kv.1 kv.2).1.len := by
      intro e
      rcases hpos with ⟨e1, e2, e3⟩ | hfresh
      · have := hwin (e1.symm.trans e)
        exact ⟨e2.trans this.1, Nat.le_trans this.2 e3⟩
      · omega
    obtain ⟨ih1, ih2⟩ := ih (Carrier.SetH u g h s kv.1 kv.2).2 (Carrier.SetH u g h s kv.1 kv.2).1
      harr (by omega) hwin'
    have hkeep : environ.read (Carrier.SetH u g h s kv.1 kv.2).2 = environ.read h := by
      apply Slice.read_congr
      intro i hi
      apply hframe _ _ henv
      intro e
      have := hwin e.symm
      omega
    simp only [List.foldl_cons]
    refine ⟨ih1.trans hkeep, ?_⟩
    simp only [Carrier.SetAll, List.foldl_cons, hset]
    exact ih2

/-- C16: `Inject` leaves the caller's list as it was.  After the `Set` calls of the propagator,
whether they replace entries or append, the window `environ` of the caller holds the elements
it held before, and the returned slice holds the list with the injected entries. -/
theorem InjectH_frame (u : UnicodeTables) (g : Nat → Nat → Nat) (sets : List (String × String))
    (h : Heap) (environ : Slice) (halloc : environ.arr < h.next) :
    environ.read (InjectH u g sets h environ).2 = environ.read h ∧
    Slice.read (InjectH u g sets h environ).2 (InjectH u g sets h environ).1
      = Inject u sets (environ.read h) := by
  obtain ⟨h1, h2⟩ := InjectH_invariant u g environ sets h environ halloc halloc
    (fun _ => ⟨rfl, Nat.le_refl _⟩)
  refine ⟨h1, ?_⟩
  simp only [Inject, h2]
  rfl

/-- Witness of C16: an append into the spare capacity of the caller's array, then a
replacement; the caller still reads its two entries. -/
theorem InjectH_frame_witness :
    exEnviron.arr < exHeap.next ∧
    exEnviron.read exHeap = ["PATH=/bin", "TRACEPARENT=old"] ∧
    exEnviron.read
        (InjectH .ascii exGrow [("tracestate", "x"), ("traceparent", "new")] exHeap exEnviron).2
      = ["PATH=/bin", "TRACEPARENT=old"] ∧
    Slice.read
        (InjectH .ascii exGrow [("tracestate", "x"), ("traceparent", "new")] exHeap exEnviron).2
        (InjectH .ascii exGrow [("tracestate", "x"), ("traceparent", "new")] exHeap exEnviron).1
      = ["PATH=/bin", "TRACEPARENT=new", "TRACESTATE=x"] :=
  ⟨by decide, by decide,
    (InjectH_frame .ascii exGrow [("tracestate", "x"), ("traceparent", "new")] exHeap exEnviron
      (by decide)).1.trans (by decide),
    (InjectH_frame .ascii exGrow [("tracestate", "x"), ("traceparent", "new")] exHeap exEnviron
      (by decide)).2.trans (by decide)⟩

end Otelbundle
